import Mathlib

/-! # The statsd metric mapper (`mapper.go`)

A shallow embedding of `mapper.go`: the line-oriented mapping-file loader
(`initFromString`, `updateMapping`) and the matcher (`getMapping`).

Modelling conventions.

* A Go `string` is a sequence of Unicode code points (`Str = List Char`); the
  texts are assumed to be valid UTF-8.
* The `regexp` package is a library, not code of the repository.  The loader and the
  matcher are written against an interface `RegexpLib` that offers exactly the three
  library calls made on user patterns (`regexp.Compile`, `FindStringSubmatchIndex`,
  `ExpandString`).  Theorems quantified over `RegexpLib` hold whatever the library does.
* The two fixed package-level patterns `labelLineRE` and `metricNameRE` are translated
  to the recognisers they denote.
* `prometheus.Labels` (a `map[string]string`) is an association list with
  replace-or-append assignment.
* A `*regexp.Regexp` is an `Option`; calling a method on `nil` is the outcome
  `Outcome.nilDeref`.
-/

namespace StatsdMapper

/-- A Go string, as a sequence of code points. -/
abbrev Str := List Char

/-! ## Library functions on strings -/

/-- Go `unicode.IsSpace`: the code points with the Unicode White_Space property. -/
def isSpace (c : Char) : Bool :=
  let n := c.toNat
  (9 ≤ n && n ≤ 13) || n == 32 || n == 0x85 || n == 0xA0 || n == 0x1680 ||
    (0x2000 ≤ n && n ≤ 0x200A) || n == 0x2028 || n == 0x2029 || n == 0x202F ||
    n == 0x205F || n == 0x3000

/-- Go `strings.TrimSpace`: drop leading and trailing white space. -/
def TrimSpace (s : Str) : Str :=
  ((s.dropWhile isSpace).reverse.dropWhile isSpace).reverse

/-- Go `strings.Split(s, "\n")`: the pieces between newlines; never empty. -/
def Split : Str → List Str
  | [] => [[]]
  | c :: cs =>
    if c = '\n' then [] :: Split cs
    else
      match Split cs with
      | [] => [[c]]
      | l :: ls => (c :: l) :: ls

/-! ## The fixed patterns -/

/-- The quotation mark. -/
def dquote : Char := Char.ofNat 34

/-- Class `[a-zA-Z_]`, the first character of `identifierRE`. -/
def isIdentStart (c : Char) : Bool :=
  let n := c.toNat
  (65 ≤ n && n ≤ 90) || (97 ≤ n && n ≤ 122) || n == 95

/-- Class `[a-zA-Z0-9_]`, the later characters of `identifierRE`. -/
def isIdentChar (c : Char) : Bool :=
  let n := c.toNat
  (65 ≤ n && n ≤ 90) || (97 ≤ n && n ≤ 122) || (48 ≤ n && n ≤ 57) || n == 95

/-- Class `\s` of Go regular expressions: `[\t\n\f\r ]`. -/
def isReSpace (c : Char) : Bool :=
  let n := c.toNat
  n == 9 || n == 10 || n == 12 || n == 13 || n == 32

/-- The call `metricNameRE.MatchString(value)` for
`metricNameRE = ^[a-zA-Z_][a-zA-Z0-9_]+$`: both anchors are text anchors, so the whole
value is one `[a-zA-Z_]` followed by one or more `[a-zA-Z0-9_]`. -/
def metricNameRE_MatchString : Str → Bool
  | c :: d :: rest => isIdentStart c && isIdentChar d && rest.all isIdentChar
  | _ => false

/-- The call `labelLineRE.FindStringSubmatch(line)` for
`labelLineRE = ^([a-zA-Z_][a-zA-Z0-9_]+)\s*=\s*"(.*)"$`.  The result is `nil` (no match)
or the three strings whole match, group 1, group 2.

The match is anchored at both ends.  Group 1 is greedy and the character after it must
be white space or `=`, neither of which is an identifier character, so group 1 is the
longest run of identifier characters; likewise each `\s*` is the longest run of white
space.  The greedy `.*` must stop right before a final quotation mark, and `.` does not
match a newline. -/
def labelLineRE_FindStringSubmatch (line : Str) : List Str :=
  let ident := line.takeWhile isIdentChar
  match ident with
  | c :: _ :: _ =>
    if isIdentStart c then
      match (line.dropWhile isIdentChar).dropWhile isReSpace with
      | e :: r1 =>
        if e = '=' then
          match r1.dropWhile isReSpace with
          | q :: r2 =>
            if q = dquote ∧ r2.getLast? = some dquote ∧ r2.dropLast.all (fun x => x != '\n') then
              [line, ident, r2.dropLast]
            else []
          | [] => []
        else []
      | [] => []
    else []
  | _ => []

/-! ## Labels -/

/-- The type `prometheus.Labels`, a `map[string]string`. -/
abbrev Labels := List (Str × Str)

/-- Map read `labels[k]` with the presence flag. -/
def Labels.get : Labels → Str → Option Str
  | [], _ => none
  | (k', v) :: rest, k => if k' = k then some v else Labels.get rest k

/-- Map assignment `labels[k] = v`: replace the entry of `k`, or add one. -/
def Labels.set : Labels → Str → Str → Labels
  | [], k, v => [(k, v)]
  | (k', v') :: rest, k, v =>
    if k' = k then (k, v) :: rest else (k', v') :: Labels.set rest k v

/-- The keys of a label map. -/
def Labels.keys (l : Labels) : List Str := l.map Prod.fst

/-! ## The regular-expression library interface -/

/-- The calls that `mapper.go` makes on user patterns. -/
structure RegexpLib where
  /-- Compiled patterns, `regexp.Regexp`. -/
  Regexp : Type
  /-- The function `regexp.Compile`: a compiled pattern or the library error text. -/
  Compile : Str → Except Str Regexp
  /-- The method `FindStringSubmatchIndex`: `nil` when there is no match. -/
  FindStringSubmatchIndex : Regexp → Str → List Int
  /-- The method `ExpandString` called with an empty destination:
  arguments template, source, match. -/
  ExpandString : Regexp → Str → Str → List Int → Str

/-! ## A concrete library: a fragment of Go's `regexp`

The witnesses and the concrete evaluations below need a library instance.  `goRegexp`
implements the fragment of Go's `regexp` syntax made of literals, `.`, `^`, `$`, the
classes `\d \w \s \D \W \S`, escaped punctuation, capturing groups, alternation and the
greedy operators `* + ?` (applied to an operand that cannot match the empty string, for
`*` and `+`), with Go's leftmost-first submatch semantics.  On ASCII text, positions are
Go's byte offsets.  A pattern outside the fragment is reported as a compile error; no
statement below evaluates `goRegexp` on such a pattern, nor on a template or a metric
name with characters outside ASCII.  The error texts are short descriptions, not the
texts of Go. -/

/-- The Perl classes. -/
inductive PerlClass
  | digit
  | word
  | space
  deriving DecidableEq, Repr

/-- Membership of a character in a Perl class. -/
def PerlClass.mem : PerlClass → Char → Bool
  | .digit, c => 48 ≤ c.toNat && c.toNat ≤ 57
  | .word, c => isIdentChar c
  | .space, c => isReSpace c

/-- Abstract syntax of the fragment. -/
inductive Rx
  | empty
  | lit (c : Char)
  | anyNotNL
  | perl (neg : Bool) (p : PerlClass)
  | beginText
  | endText
  | cat (a b : Rx)
  | alt (a b : Rx)
  | star (a : Rx)
  | plus (a : Rx)
  | quest (a : Rx)
  | capture (n : Nat) (a : Rx)
  deriving DecidableEq, Repr

/-- Whether the expression can match the empty string. -/
def Rx.nullable : Rx → Bool
  | .empty => true
  | .lit _ => false
  | .anyNotNL => false
  | .perl _ _ => false
  | .beginText => true
  | .endText => true
  | .cat a b => a.nullable && b.nullable
  | .alt a b => a.nullable || b.nullable
  | .star _ => true
  | .plus a => a.nullable
  | .quest _ => true
  | .capture _ a => a.nullable

/-- Whether the expression is a repetition. -/
def Rx.isRepeat : Rx → Bool
  | .star _ => true
  | .plus _ => true
  | .quest _ => true
  | _ => false

/-- One level of the parse stack: the finished alternatives and the items of the
current concatenation, both latest first, and the number of the enclosing group. -/
structure Frame where
  alts : List Rx
  items : List Rx
  group : Nat
  deriving DecidableEq, Repr

/-- Concatenation of items given latest first. -/
def catOf : List Rx → Rx
  | [] => .empty
  | [r] => r
  | r :: rs => .cat (catOf rs) r

/-- Alternation of a last alternative and earlier ones, latest first. -/
def altOf : Rx → List Rx → Rx
  | r, [] => r
  | r, a :: as => altOf (.alt a r) as

/-- The expression of a finished frame. -/
def Frame.close (f : Frame) : Rx := altOf (catOf f.items) f.alts

/-- The parser state: the open frame, the enclosing frames, the number of groups. -/
structure ParseState where
  top : Frame
  stack : List Frame
  ncap : Nat
  deriving DecidableEq, Repr

/-- Add an item to the current concatenation. -/
def ParseState.push (st : ParseState) (r : Rx) : ParseState :=
  { st with top := { st.top with items := r :: st.top.items } }

/-- Apply a repetition operator to the last item. -/
def ParseState.repeatLast (st : ParseState) (op : Rx → Rx) (needsNonNullable : Bool) :
    Except Str ParseState :=
  match st.top.items with
  | [] => .error "missing argument to repetition operator".toList
  | r :: rs =>
    if r.isRepeat then .error "nested repetition operator (not in the fragment)".toList
    else if needsNonNullable && r.nullable then
      .error "repetition of an expression matching the empty string (not in the fragment)".toList
    else .ok { st with top := { st.top with items := op r :: rs } }

/-- The backslash. -/
def backslash : Char := Char.ofNat 92

/-- The expression of an escape `\c`. -/
def escapeRx (c : Char) : Option Rx :=
  if c = 'd' then some (.perl false .digit)
  else if c = 'D' then some (.perl true .digit)
  else if c = 'w' then some (.perl false .word)
  else if c = 'W' then some (.perl true .word)
  else if c = 's' then some (.perl false .space)
  else if c = 'S' then some (.perl true .space)
  else if c.toNat < 128 && !isIdentChar c then some (.lit c)
  else none

/-- The parser, one character at a time, in the manner of `regexp/syntax`. -/
def parseRx : Str → ParseState → Except Str (Rx × Nat)
  | [], st =>
    match st.stack with
    | [] => .ok (st.top.close, st.ncap)
    | _ :: _ => .error "missing closing )".toList
  | c :: rest, st =>
    if c = backslash then
      match rest with
      | [] => .error "trailing backslash at end of expression".toList
      | e :: rest' =>
        match escapeRx e with
        | some r => parseRx rest' (st.push r)
        | none => .error "escape sequence not in the fragment".toList
    else if c = '(' then
      match rest with
      | '?' :: _ => .error "group flags (not in the fragment)".toList
      | _ =>
        parseRx rest
          { top := ⟨[], [], st.ncap + 1⟩, stack := st.top :: st.stack, ncap := st.ncap + 1 }
    else if c = ')' then
      match st.stack with
      | [] => .error "unexpected )".toList
      | f :: fs =>
        parseRx rest
          { top := { f with items := .capture st.top.group st.top.close :: f.items }
            stack := fs, ncap := st.ncap }
    else if c = '|' then
      parseRx rest
        { st with top := { st.top with alts := catOf st.top.items :: st.top.alts, items := [] } }
    else if c = '*' then
      match st.repeatLast .star true with
      | .error e => .error e
      | .ok st' => parseRx rest st'
    else if c = '+' then
      match st.repeatLast .plus true with
      | .error e => .error e
      | .ok st' => parseRx rest st'
    else if c = '?' then
      match st.repeatLast .quest false with
      | .error e => .error e
      | .ok st' => parseRx rest st'
    else if c = '.' then parseRx rest (st.push .anyNotNL)
    else if c = '^' then parseRx rest (st.push .beginText)
    else if c = '$' then parseRx rest (st.push .endText)
    else if c = '[' ∨ c = Char.ofNat 123 then
      .error "character classes and counted repetition (not in the fragment)".toList
    else parseRx rest (st.push (.lit c))

/-- A position of the matcher: offset, remaining text, groups closed so far (latest
first, as group number, start, end). -/
structure MState where
  pos : Nat
  rest : Str
  caps : List (Nat × Nat × Nat)
  deriving DecidableEq, Repr

/-- Consume one character satisfying `p`. -/
def MState.eat (s : MState) (p : Char → Bool) (k : MState → Option MState) : Option MState :=
  match s.rest with
  | [] => none
  | d :: r => if p d then k { s with pos := s.pos + 1, rest := r } else none

/-- Greedy iteration of `body`, at most `fuel` times; an iteration must consume text. -/
def starLoop (body : MState → (MState → Option MState) → Option MState) :
    Nat → MState → (MState → Option MState) → Option MState
  | 0, s, k => k s
  | fuel + 1, s, k =>
    match body s (fun s' => if s.pos < s'.pos then starLoop body fuel s' k else none) with
    | some r => some r
    | none => k s

/-- Backtracking matcher with continuation: alternatives in order, repetition greedy. -/
def Rx.run : Rx → MState → (MState → Option MState) → Option MState
  | .empty, s, k => k s
  | .lit c, s, k => s.eat (fun d => d == c) k
  | .anyNotNL, s, k => s.eat (fun d => d != '\n') k
  | .perl neg p, s, k => s.eat (fun d => p.mem d != neg) k
  | .beginText, s, k => if s.pos = 0 then k s else none
  | .endText, s, k => if s.rest = [] then k s else none
  | .cat a b, s, k => a.run s (fun s' => b.run s' k)
  | .alt a b, s, k =>
    match a.run s k with
    | some r => some r
    | none => b.run s k
  | .star a, s, k => starLoop (fun s1 k1 => a.run s1 k1) s.rest.length s k
  | .plus a, s, k =>
    a.run s (fun s' => starLoop (fun s1 k1 => a.run s1 k1) s'.rest.length s' k)
  | .quest a, s, k =>
    match a.run s k with
    | some r => some r
    | none => k s
  | .capture n a, s, k => a.run s (fun s' => k { s' with caps := (n, s.pos, s'.pos) :: s'.caps })

/-- The leftmost match: the start offset and the final matcher position. -/
def Rx.search (r : Rx) : Nat → Str → Option (Nat × MState)
  | pos, [] => (r.run ⟨pos, [], []⟩ some).map (fun e => (pos, e))
  | pos, c :: cs =>
    match r.run ⟨pos, c :: cs, []⟩ some with
    | some e => some (pos, e)
    | none => Rx.search r (pos + 1) cs

/-- The offsets of group `n`: its latest closing, or -1 -1. -/
def capOffsets : List (Nat × Nat × Nat) → Nat → List Int
  | [], _ => [-1, -1]
  | (m, a, b) :: rest, n => if m = n then [(a : Int), (b : Int)] else capOffsets rest n

/-- The offsets of groups `n+1 .. n+count`. -/
def groupOffsets (caps : List (Nat × Nat × Nat)) : Nat → Nat → List Int
  | _, 0 => []
  | n, count + 1 => capOffsets caps (n + 1) ++ groupOffsets caps (n + 1) count

/-- The method `FindStringSubmatchIndex` of the fragment. -/
def Rx.findStringSubmatchIndex (re : Rx × Nat) (s : Str) : List Int :=
  match re.1.search 0 s with
  | none => []
  | some (start, e) => [(start : Int), (e.pos : Int)] ++ groupOffsets e.caps 0 re.2

/-- The characters of a variable name in a template: ASCII letters, digits and the
underscore.  Go takes every Unicode letter and digit; a template with a letter or digit
outside ASCII right after a variable is outside the fragment. -/
def isNameChar (c : Char) : Bool := isIdentChar c

/-- The number denoted by a name, as in `extract`: -1 (here `none`) unless the name is
all digits, below the overflow guard, and without a leading zero. -/
def nameNumber (name : Str) : Option Nat :=
  let rec go : Str → Nat → Option Nat
    | [], num => some num
    | c :: cs, num =>
      if c.toNat < 48 ∨ 57 < c.toNat ∨ num ≥ 100000000 then none
      else go cs (num * 10 + (c.toNat - 48))
  match name with
  | c :: _ :: _ => if c = '0' then none else go name 0
  | _ => go name 0

/-- The helper `extract` of `regexp`: the name after a `$`, its number, and the rest. -/
def extract (str : Str) : Option (Str × Option Nat × Str) :=
  match str with
  | [] => none
  | c :: tl =>
    let brace := c = Char.ofNat 123
    let body := if brace then tl else str
    let name := body.takeWhile isNameChar
    let after := body.dropWhile isNameChar
    if name = [] then none
    else if brace then
      match after with
      | d :: rest => if d = Char.ofNat 125 then some (name, nameNumber name, rest) else none
      | [] => none
    else some (name, nameNumber name, after)

/-- The text of submatch `num`, empty when out of range or unmatched. -/
def submatchText (src : Str) (m : List Int) (num : Nat) : Str :=
  match m.get? (2 * num), m.get? (2 * num + 1) with
  | some a, some b => if 0 ≤ a then (src.drop a.toNat).take (b.toNat - a.toNat) else []
  | _, _ => []

/-- The loop of `expand` of `regexp`; every round consumes template text, so a fuel of
the template length suffices. -/
def expandLoop (src : Str) (m : List Int) : Nat → Str → Str
  | 0, t => t
  | _ + 1, [] => []
  | fuel + 1, c :: t =>
    if c ≠ '$' then c :: expandLoop src m fuel t
    else
      match t with
      | '$' :: t' => '$' :: expandLoop src m fuel t'
      | _ =>
        match extract t with
        | none => '$' :: expandLoop src m fuel t
        | some (_, some num, rest) => submatchText src m num ++ expandLoop src m fuel rest
        | some (_, none, rest) => expandLoop src m fuel rest

/-- The fragment of Go's `regexp` used for concrete evaluations. -/
def goRegexp : RegexpLib where
  Regexp := Rx × Nat
  Compile := fun p => parseRx p ⟨⟨[], [], 0⟩, [], 0⟩
  FindStringSubmatchIndex := Rx.findStringSubmatchIndex
  ExpandString := fun _ template src m => expandLoop src m (template.length + 1) template

/-! ## Data model -/

/-- The struct `metricMapping`. -/
structure metricMapping (E : RegexpLib) where
  regex : Option E.Regexp
  labels : Labels
  ignore : Bool

/-- The struct `metricMapper` (the mutex is not modelled: calls are serialised). -/
structure metricMapper (E : RegexpLib) where
  mappings : List (metricMapping E)

/-- The rule store together with the package-level gauge `mappingsCount`. -/
structure Store (E : RegexpLib) where
  m : metricMapper E
  mappingsCount : Nat

/-- The store of a program that has not loaded anything. -/
def Store.initial (E : RegexpLib) : Store E := ⟨⟨[]⟩, 0⟩

/-- The type `configLoadStates`. -/
inductive configLoadStates
  | SEARCHING
  | METRIC_DEFINITION
  deriving DecidableEq, Repr

/-- The errors built by `fmt.Errorf` in `initFromString` and `updateMapping`.  Every
message starts with `Line %d` and the first field is the integer printed there. -/
inductive LoadError
  /-- Message `Line %d: expected regex match line, got: %s on line %s` -/
  | InvalidPattern (n : Nat) (err : Str) (line : Str)
  /-- Message `Line %d: missing terminating newline` -/
  | MissingTerminatingBlankLine (n : Nat)
  /-- Message `Line %d: metric mapping didn't set any labels` -/
  | IncompleteRuleNoLabels (n : Nat)
  /-- Message `Line %d: metric mapping didn't set a metric name` -/
  | IncompleteRuleNoName (n : Nat)
  /-- Message `Line %d: expected label mapping line, got: %s` -/
  | MalformedLabelLine (n : Nat) (line : Str)
  /-- Message `Line %d: metric name '%s' doesn't match regex '%s'` -/
  | InvalidMetricName (n : Nat) (value : Str)
  deriving DecidableEq, Repr

/-- The integer printed after `Line` in the message. -/
def LoadError.lineNumber : LoadError → Nat
  | .InvalidPattern n _ _ => n
  | .MissingTerminatingBlankLine n => n
  | .IncompleteRuleNoLabels n => n
  | .IncompleteRuleNoName n => n
  | .MalformedLabelLine n _ => n
  | .InvalidMetricName n _ => n

/-- The outcome of a Go call that may dereference a nil pointer. -/
inductive Outcome (α : Type)
  | nilDeref
  | returned (v : α)
  deriving DecidableEq, Repr

/-! ## The loader -/

/-- The literal `metricMapping{labels: prometheus.Labels{}}`. -/
def freshMapping (E : RegexpLib) : metricMapping E := ⟨none, [], false⟩

/-- The method `updateMapping`; the updated `*mapping` is returned. -/
def updateMapping {E : RegexpLib} (line : Str) (i : Nat) (mapping : metricMapping E) :
    Except LoadError (metricMapping E) :=
  match labelLineRE_FindStringSubmatch line with
  | [_, label, value] =>
    if label = "name".toList ∧ ¬ metricNameRE_MatchString value then
      .error (.InvalidMetricName i value)
    else if label = "ignore".toList ∧ value = "true".toList then
      .ok { mapping with ignore := true }
    else
      .ok { mapping with labels := mapping.labels.set label value }
  | _ => .error (.MalformedLabelLine i line)

/-- The local variables of the loop of `initFromString`. -/
structure LoopState (E : RegexpLib) where
  state : configLoadStates
  parsedMappings : List (metricMapping E)
  currentMapping : metricMapping E

/-- The local variables before the first line. -/
def LoopState.start (E : RegexpLib) : LoopState E := ⟨.SEARCHING, [], freshMapping E⟩

/-- One iteration of the loop of `initFromString`, for the line of index `i`. -/
def loopBody (E : RegexpLib) (numLines i : Nat) (rawLine : Str) (st : LoopState E) :
    Except LoadError (LoopState E) :=
  let line := TrimSpace rawLine
  match st.state with
  | .SEARCHING =>
    if line = [] then .ok st
    else
      match E.Compile ('^' :: line ++ ['$']) with
      | .error err => .error (.InvalidPattern i err line)
      | .ok re =>
        .ok { st with
              currentMapping := { st.currentMapping with regex := some re }
              state := .METRIC_DEFINITION }
  | .METRIC_DEFINITION =>
    if i + 1 = numLines ∧ line ≠ [] then .error (.MissingTerminatingBlankLine i)
    else if line = [] then
      if st.currentMapping.ignore = false ∧ st.currentMapping.labels.length = 0 then
        .error (.IncompleteRuleNoLabels i)
      else if st.currentMapping.ignore = false ∧
          st.currentMapping.labels.get "name".toList = none then
        .error (.IncompleteRuleNoName i)
      else
        .ok { state := .SEARCHING
              parsedMappings := st.parsedMappings ++ [st.currentMapping]
              currentMapping := freshMapping E }
    else
      match updateMapping line i st.currentMapping with
      | .error e => .error e
      | .ok cur => .ok { st with currentMapping := cur }

/-- The loop `for i, line := range lines`, from index `i` on. -/
def runLoop (E : RegexpLib) (numLines : Nat) :
    List Str → Nat → LoopState E → Except LoadError (LoopState E)
  | [], _, st => .ok st
  | l :: ls, i, st =>
    match loopBody E numLines i l st with
    | .error e => .error e
    | .ok st' => runLoop E numLines ls (i + 1) st'

/-- The loop of `initFromString` on a whole text: the parsed rules, or the error. -/
def parseConfig (E : RegexpLib) (fileContents : Str) : Except LoadError (LoopState E) :=
  let lines := Split fileContents
  runLoop E lines.length lines 0 (LoopState.start E)

/-- The method `initFromString`: the store after the call and the returned error. -/
def initFromString (E : RegexpLib) (s : Store E) (fileContents : Str) :
    Store E × Option LoadError :=
  match parseConfig E fileContents with
  | .error e => (s, some e)
  | .ok st => (⟨⟨st.parsedMappings⟩, st.parsedMappings.length⟩, none)

/-! ## The matcher -/

/-- The inner loop of `getMapping`: the new label map built from the templates. -/
def expandLabels (E : RegexpLib) (re : E.Regexp) (statsdMetric : Str) (submatches : List Int) :
    Labels → Labels → Labels
  | [], acc => acc
  | (label, valueExpr) :: rest, acc =>
    expandLabels E re statsdMetric submatches rest
      (acc.set label (E.ExpandString re valueExpr statsdMetric submatches))

/-- The loop of `getMapping` over the rules. -/
def getMappingLoop (E : RegexpLib) (statsdMetric : Str) :
    List (metricMapping E) → Outcome (Option Labels × Bool)
  | [] => .returned (none, false)
  | mapping :: rest =>
    match mapping.regex with
    | none => .nilDeref
    | some re =>
      let submatches := E.FindStringSubmatchIndex re statsdMetric
      if submatches.length = 0 then getMappingLoop E statsdMetric rest
      else if mapping.ignore then .returned (none, true)
      else .returned (some (expandLabels E re statsdMetric submatches mapping.labels []), true)

/-- The method `getMapping`. -/
def getMapping (E : RegexpLib) (m : metricMapper E) (statsdMetric : Str) :
    Outcome (Option Labels × Bool) :=
  getMappingLoop E statsdMetric m.mappings

/-! ## Vocabulary of the statements -/

/-- The pattern of a rule matches the metric name: `FindStringSubmatchIndex` is not
empty. -/
def metricMapping.matchesName {E : RegexpLib} (r : metricMapping E) (name : Str) : Prop :=
  ∃ re, r.regex = some re ∧ E.FindStringSubmatchIndex re name ≠ []

/-- The stores a program can be in: the initial one, and the store left by a call of
`initFromString`, failed or not (`getMapping` does not change the store). -/
inductive Store.Reachable (E : RegexpLib) : Store E → Prop
  | initial : Store.Reachable E (Store.initial E)
  | load (s : Store E) (fileContents : Str) :
      Store.Reachable E s → Store.Reachable E (initFromString E s fileContents).1

/-- Every parsed rule has a compiled pattern, and so has the rule in progress inside
a block. -/
def LoopState.Compiled {E : RegexpLib} (st : LoopState E) : Prop :=
  (∀ r ∈ st.parsedMappings, r.regex ≠ none) ∧
  (st.state = .METRIC_DEFINITION → st.currentMapping.regex ≠ none)

/-! ## Example data -/

/-- A rule as the loader builds it from a pattern line, over the concrete library. -/
def exampleRule (patternLine : String) (labels : List (String × String)) (ignore : Bool) :
    metricMapping goRegexp :=
  ⟨(goRegexp.Compile ('^' :: patternLine.toList ++ ['$'])).toOption,
    labels.map (fun kv => (kv.1.toList, kv.2.toList)), ignore⟩

/-- The store after loading a text into a fresh program, over the concrete library. -/
def exampleLoad (fileContents : String) : Store goRegexp :=
  (initFromString goRegexp (Store.initial goRegexp) fileContents.toList).1

/-- The compiled form of the pattern line `a.*`. -/
def exampleRegexA : Rx × Nat :=
  (.cat (.cat (.cat .beginText (.lit 'a')) (.star .anyNotNL)) .endText, 0)

/-- Every value stored under the key `name` passed the check of `updateMapping`. -/
def Labels.NameValid (l : Labels) : Prop :=
  ∀ v, ("name".toList, v) ∈ l → metricNameRE_MatchString v = true

/-- The rule invariant: a rule that is not ignore-only has labels, among them `name`. -/
def metricMapping.Complete {E : RegexpLib} (r : metricMapping E) : Prop :=
  r.ignore = false → r.labels ≠ [] ∧ ∃ v, r.labels.get "name".toList = some v

/-- What the loop keeps true of the label maps: parsed rules are complete, and all
maps have distinct keys and checked `name` values. -/
def LoopState.LabelsOK {E : RegexpLib} (st : LoopState E) : Prop :=
  (∀ r ∈ st.parsedMappings, r.Complete ∧ r.labels.NameValid ∧ r.labels.keys.Nodup) ∧
  st.currentMapping.labels.NameValid ∧ st.currentMapping.labels.keys.Nodup

/-- Identifier syntax `[a-zA-Z_][a-zA-Z0-9_]+` over the whole string: one character of
the first class followed by one or more of the second. -/
def IsIdentifier (v : Str) : Prop :=
  ∃ c rest, v = c :: rest ∧ isIdentStart c = true ∧ rest ≠ [] ∧
    ∀ x ∈ rest, isIdentChar x = true

/-- The text of the example of the specification: pattern `api\.(\w+)\.latency` with
`name="api_latency"` and `path="${1}"`. -/
def exampleApiConfig : Str :=
  "api\\.(\\w+)\\.latency\nname=\"api_latency\"\npath=\"$\x7b1\x7d\"\n\n".toList

/-- The compiled form of the pattern line `api\.(\w+)\.latency`. -/
def exampleRegexApi : Rx × Nat :=
  ((goRegexp.Compile "^api\\.(\\w+)\\.latency$".toList).toOption.getD (.empty, 0))

/-- A label line that sets the ignore flag: after trimming, `labelLineRE` reads the
label `ignore` and the value `true` (as on the line `ignore = "true"`). -/
def IsIgnoreLine (l : Str) : Prop :=
  ∃ whole, labelLineRE_FindStringSubmatch (TrimSpace l) =
    [whole, "ignore".toList, "true".toList]

/-- The line `ignore = "true"`. -/
def ignoreLine : Str := "ignore = \"true\"".toList

/-- A block with other label lines before and after the ignore line. -/
def exampleIgnoreConfig : Str :=
  "a.*\nzone=\"$1\"\nignore = \"true\"\nname=\"first\"\n\n".toList

/-- The expression matches the entire string: a match from offset 0 that ends at the
end of the text. -/
def Rx.matchesWhole (r : Rx) (s : Str) : Bool :=
  (r.run ⟨0, s, []⟩ (fun e => if e.rest = [] then some e else none)).isSome

/-- The method `updateMapping` as a transformer of `*mapping`: the mapping after the
call and the returned error.  Both error returns come before any assignment. -/
def updateMappingInPlace {E : RegexpLib} (line : Str) (i : Nat) (mapping : metricMapping E) :
    metricMapping E × Option LoadError :=
  match labelLineRE_FindStringSubmatch line with
  | [_, label, value] =>
    if label = "name".toList ∧ ¬ metricNameRE_MatchString value then
      (mapping, some (.InvalidMetricName i value))
    else if label = "ignore".toList ∧ value = "true".toList then
      ({ mapping with ignore := true }, none)
    else
      ({ mapping with labels := mapping.labels.set label value }, none)
  | _ => (mapping, some (.MalformedLabelLine i line))

/-- The form of a label line in the words of the specification: an identifier,
optional white space, `=`, optional white space, a quotation mark, any characters (the
value), and a quotation mark as the last character of the line.  White space here is
the class `\s` of the pattern. -/
def LabelLineForm (line ident value : Str) : Prop :=
  ∃ ws1 ws2, IsIdentifier ident ∧ (∀ c ∈ ws1, isReSpace c = true) ∧
    (∀ c ∈ ws2, isReSpace c = true) ∧
    line = ident ++ (ws1 ++ ('=' :: (ws2 ++ (dquote :: (value ++ [dquote])))))

/-- The label map assigned by the label lines of a block, starting from `acc`: every
line that `labelLineRE` reads stores its pair, except the lines `ignore` with the value
`true`, which store nothing. -/
def blockLabels : List Str → Labels → Labels
  | [], acc => acc
  | l :: ls, acc =>
    match labelLineRE_FindStringSubmatch (TrimSpace l) with
    | [_, label, value] =>
      if label = "ignore".toList ∧ value = "true".toList then blockLabels ls acc
      else blockLabels ls (acc.set label value)
    | _ => blockLabels ls acc

/-- Outside a block the rule in progress is the fresh one. -/
def LoopState.FreshOutside {E : RegexpLib} (st : LoopState E) : Prop :=
  st.state = .SEARCHING → st.currentMapping = freshMapping E

/-- A string made of spaces and tabs. -/
def IsBlanks (a : Str) : Prop := ∀ c ∈ a, c = ' ' ∨ c = '\t'

/-- Two lines that differ only by spaces and tabs added or removed at their ends. -/
def SameUpToBlanks (l1 l2 : Str) : Prop :=
  ∃ a b a' b' core, IsBlanks a ∧ IsBlanks b ∧ IsBlanks a' ∧ IsBlanks b' ∧
    l1 = a ++ (core ++ b) ∧ l2 = a' ++ (core ++ b')

/-- The label lines of the closed blocks of a text, in order.  The second argument is
the state of the reader: `none` outside a block, `some body` inside a block whose label
lines so far are `body`.  A block is opened by a non-blank line read outside a block (its
pattern line) and closed by a blank line; a block still open at the end of the text is
not listed. -/
def blockBodies : List Str → Option (List Str) → List (List Str)
  | [], _ => []
  | l :: ls, none =>
    if TrimSpace l = [] then blockBodies ls none else blockBodies ls (some [])
  | l :: ls, some body =>
    if TrimSpace l = [] then body :: blockBodies ls none
    else blockBodies ls (some (body ++ [l]))

/-- The rule `r` is the rule of a block with the label lines `body`: its label map is the
one the label lines other than `ignore = "true"` assign, its ignore flag is set exactly
when one of the lines is an ignore line, and `labelLineRE` reads every line. -/
def IsRuleOfBlock {E : RegexpLib} (r : metricMapping E) (body : List Str) : Prop :=
  r.labels = blockLabels body [] ∧
  (r.ignore = true ↔ ∃ l ∈ body, IsIgnoreLine l) ∧
  ∀ l ∈ body, ∃ whole label value,
    labelLineRE_FindStringSubmatch (TrimSpace l) = [whole, label, value]

/-- The reader state of `blockBodies` that goes with a loop state. -/
def LoopState.AtBlock {E : RegexpLib} (st : LoopState E) : Option (List Str) → Prop
  | none => st.state = .SEARCHING ∧ st.currentMapping.labels = [] ∧
      st.currentMapping.ignore = false
  | some body => st.state = .METRIC_DEFINITION ∧ IsRuleOfBlock st.currentMapping body

/-- A text with two ignore-only blocks: one with other label lines around the ignore
line, one with the ignore line alone. -/
def exampleTwoIgnoreConfig : Str :=
  "a.*\nzone=\"$1\"\nignore = \"true\"\nname=\"first\"\n\nb.*\nignore = \"true\"\n\n".toList

/-! # Lemmas and theorems -/

/-! ## Lemmas on the loop -/

theorem runLoop_append (E : RegexpLib) (n : Nat) (xs ys : List Str) (i : Nat)
    (st : LoopState E) :
    runLoop E n (xs ++ ys) i st =
      match runLoop E n xs i st with
      | .error e => .error e
      | .ok st' => runLoop E n ys (i + xs.length) st' := by
  induction xs generalizing i st with
  | nil => simp [runLoop]
  | cons x xs ih =>
    simp only [List.cons_append, runLoop, List.length_cons]
    cases h : loopBody E n i x st with
    | error e => simp
    | ok st' =>
      have hlen : i + 1 + xs.length = i + (xs.length + 1) := by omega
      have := ih (i + 1) st'
      rw [hlen] at this
      exact this

/-- An invariant of the loop body is an invariant of the loop. -/
theorem runLoop_invariant (E : RegexpLib) (n : Nat) (Inv : LoopState E → Prop)
    (hbody : ∀ i l st st', Inv st → loopBody E n i l st = .ok st' → Inv st') :
    ∀ (ls : List Str) (i : Nat) (st st' : LoopState E),
      Inv st → runLoop E n ls i st = .ok st' → Inv st' := by
  intro ls
  induction ls with
  | nil =>
    intro i st st' hinv h
    simp only [runLoop, Except.ok.injEq] at h
    exact h ▸ hinv
  | cons l ls ih =>
    intro i st st' hinv h
    simp only [runLoop] at h
    cases hb : loopBody E n i l st with
    | error e => rw [hb] at h; cases h
    | ok st1 =>
      rw [hb] at h
      exact ih (i + 1) st1 st' (hbody i l st st1 hinv hb) h

/-- The three ways in which the loop body succeeds. -/
theorem loopBody_ok_cases (E : RegexpLib) (n i : Nat) (l : Str) (st st' : LoopState E)
    (h : loopBody E n i l st = .ok st') :
    (st.state = .SEARCHING ∧ TrimSpace l = [] ∧ st' = st) ∨
    (st.state = .SEARCHING ∧ TrimSpace l ≠ [] ∧
      ∃ re, E.Compile ('^' :: TrimSpace l ++ ['$']) = .ok re ∧
        st' = { st with currentMapping := { st.currentMapping with regex := some re }
                        state := .METRIC_DEFINITION }) ∨
    (st.state = .METRIC_DEFINITION ∧ TrimSpace l = [] ∧
      ¬ (st.currentMapping.ignore = false ∧ st.currentMapping.labels.length = 0) ∧
      ¬ (st.currentMapping.ignore = false ∧
          st.currentMapping.labels.get "name".toList = none) ∧
      st' = { state := .SEARCHING
              parsedMappings := st.parsedMappings ++ [st.currentMapping]
              currentMapping := freshMapping E }) ∨
    (st.state = .METRIC_DEFINITION ∧ TrimSpace l ≠ [] ∧ i + 1 ≠ n ∧
      ∃ cur, updateMapping (TrimSpace l) i st.currentMapping = .ok cur ∧
        st' = { st with currentMapping := cur }) := by
  unfold loopBody at h
  cases hs : st.state with
  | SEARCHING =>
    simp only [hs] at h
    by_cases hl : TrimSpace l = []
    · simp only [hl, if_true, Except.ok.injEq] at h
      exact Or.inl ⟨rfl, hl, h.symm⟩
    · simp only [hl, if_false] at h
      cases hc : E.Compile ('^' :: TrimSpace l ++ ['$']) with
      | error e => rw [hc] at h; cases h
      | ok re =>
        rw [hc] at h
        simp only [Except.ok.injEq] at h
        exact Or.inr (Or.inl ⟨rfl, hl, re, rfl, h.symm⟩)
  | METRIC_DEFINITION =>
    simp only [hs] at h
    by_cases hl : TrimSpace l = []
    · simp only [hl, ne_eq, not_true_eq_false, and_false, if_false, if_true] at h
      by_cases h1 : st.currentMapping.ignore = false ∧ st.currentMapping.labels.length = 0
      · rw [if_pos h1] at h; cases h
      · rw [if_neg h1] at h
        by_cases h2 : st.currentMapping.ignore = false ∧
            st.currentMapping.labels.get "name".toList = none
        · rw [if_pos h2] at h; cases h
        · rw [if_neg h2] at h
          simp only [Except.ok.injEq] at h
          exact Or.inr (Or.inr (Or.inl ⟨rfl, hl, h1, h2, h.symm⟩))
    · by_cases hi : i + 1 = n
      · rw [if_pos ⟨hi, hl⟩] at h; cases h
      · rw [if_neg (fun hh => hi hh.1), if_neg hl] at h
        cases hu : updateMapping (TrimSpace l) i st.currentMapping with
        | error e => rw [hu] at h; cases h
        | ok cur =>
          rw [hu] at h
          simp only [Except.ok.injEq] at h
          exact Or.inr (Or.inr (Or.inr ⟨rfl, hl, hi, cur, rfl, h.symm⟩))

/-- The three ways in which `updateMapping` succeeds. -/
theorem updateMapping_ok_cases {E : RegexpLib} (line : Str) (i : Nat)
    (mapping cur : metricMapping E) (h : updateMapping line i mapping = .ok cur) :
    ∃ whole label value, labelLineRE_FindStringSubmatch line = [whole, label, value] ∧
      ¬ (label = "name".toList ∧ ¬ metricNameRE_MatchString value) ∧
      ((label = "ignore".toList ∧ value = "true".toList ∧
          cur = { mapping with ignore := true }) ∨
       (¬ (label = "ignore".toList ∧ value = "true".toList) ∧
          cur = { mapping with labels := mapping.labels.set label value })) := by
  unfold updateMapping at h
  split at h
  · rename_i whole label value hm
    refine ⟨whole, label, value, hm, ?_⟩
    by_cases h1 : label = "name".toList ∧ ¬ metricNameRE_MatchString value
    · rw [if_pos h1] at h; cases h
    · rw [if_neg h1] at h
      refine ⟨h1, ?_⟩
      by_cases h2 : label = "ignore".toList ∧ value = "true".toList
      · rw [if_pos h2] at h
        simp only [Except.ok.injEq] at h
        exact Or.inl ⟨h2.1, h2.2, h.symm⟩
      · rw [if_neg h2] at h
        simp only [Except.ok.injEq] at h
        exact Or.inr ⟨h2, h.symm⟩
  · cases h

/-! ## Lemmas on the matcher -/

theorem getMappingLoop_skip (E : RegexpLib) (name : Str) (before rest : List (metricMapping E))
    (hbefore : ∀ b ∈ before, ∃ re, b.regex = some re ∧ E.FindStringSubmatchIndex re name = []) :
    getMappingLoop E name (before ++ rest) = getMappingLoop E name rest := by
  induction before with
  | nil => rfl
  | cons b bs ih =>
    obtain ⟨re, hre, hno⟩ := hbefore b (List.mem_cons_self b bs)
    have ih' := ih (fun c hc => hbefore c (List.mem_cons_of_mem b hc))
    simp only [List.cons_append, getMappingLoop, hre, hno, List.length_nil, if_true]
    exact ih'

theorem getMappingLoop_hit (E : RegexpLib) (name : Str) (r : metricMapping E)
    (rest : List (metricMapping E)) (re : E.Regexp) (hr : r.regex = some re)
    (hmatch : E.FindStringSubmatchIndex re name ≠ []) :
    getMappingLoop E name (r :: rest) =
      .returned (if r.ignore then none
        else some (expandLabels E re name (E.FindStringSubmatchIndex re name) r.labels []),
        true) := by
  have hlen : ¬ (E.FindStringSubmatchIndex re name).length = 0 := by
    intro h0
    exact hmatch (List.length_eq_zero.mp h0)
  simp only [getMappingLoop, hr, hlen, if_false]
  cases r.ignore <;> simp

/-- On rules that all have a compiled pattern, the loop of `getMapping` returns, with
`present` telling whether some rule matches. -/
theorem getMappingLoop_present (E : RegexpLib) (name : Str) (rules : List (metricMapping E))
    (hre : ∀ r ∈ rules, r.regex ≠ none) :
    ((∀ r ∈ rules, ¬ r.matchesName name) ∧
        getMappingLoop E name rules = .returned (none, false)) ∨
    ((∃ r ∈ rules, r.matchesName name) ∧
        ∃ labels, getMappingLoop E name rules = .returned (labels, true)) := by
  induction rules with
  | nil =>
    left
    exact ⟨fun r hr => (nomatch hr), rfl⟩
  | cons r rs ih =>
    have ih' := ih (fun c hc => hre c (List.mem_cons_of_mem r hc))
    cases hreg : r.regex with
    | none => exact absurd hreg (hre r (List.mem_cons_self r rs))
    | some re =>
      by_cases hm : E.FindStringSubmatchIndex re name = []
      · have hskip : getMappingLoop E name (r :: rs) = getMappingLoop E name rs :=
          getMappingLoop_skip E name [r] rs (by
            intro b hb
            rw [List.mem_singleton] at hb
            exact ⟨re, hb ▸ hreg, hm⟩)
        rw [hskip]
        have hnr : ¬ r.matchesName name := by
          rintro ⟨re', h1, h2⟩
          rw [hreg] at h1
          cases h1
          exact h2 hm
        rcases ih' with ⟨hnone, hres⟩ | ⟨⟨c, hc, hcm⟩, hres⟩
        · left
          refine ⟨?_, hres⟩
          intro c hc
          rcases List.mem_cons.mp hc with rfl | hc'
          · exact hnr
          · exact hnone c hc'
        · right
          exact ⟨⟨c, List.mem_cons_of_mem r hc, hcm⟩, hres⟩
      · right
        refine ⟨⟨r, List.mem_cons_self r rs, re, hreg, hm⟩, ?_⟩
        rw [getMappingLoop_hit E name r rs re hreg hm]
        exact ⟨_, rfl⟩

/-! ## The rules of a reachable store are compiled -/

theorem updateMapping_regex {E : RegexpLib} (line : Str) (i : Nat)
    (mapping cur : metricMapping E) (h : updateMapping line i mapping = .ok cur) :
    cur.regex = mapping.regex := by
  obtain ⟨_, _, _, _, _, h3⟩ := updateMapping_ok_cases line i mapping cur h
  rcases h3 with ⟨_, _, rfl⟩ | ⟨_, rfl⟩ <;> rfl

theorem loopBody_compiled (E : RegexpLib) (n i : Nat) (l : Str) (st st' : LoopState E)
    (hinv : st.Compiled) (h : loopBody E n i l st = .ok st') : st'.Compiled := by
  rcases loopBody_ok_cases E n i l st st' h with
    ⟨hs, _, rfl⟩ | ⟨_, _, re, _, rfl⟩ | ⟨hs, _, _, _, rfl⟩ | ⟨hs, _, _, cur, hu, rfl⟩
  · exact hinv
  · exact ⟨hinv.1, fun _ => by simp⟩
  · refine ⟨?_, fun hh => by cases hh⟩
    intro r hr
    rcases List.mem_append.mp hr with hr' | hr'
    · exact hinv.1 r hr'
    · rw [List.mem_singleton] at hr'
      rw [hr']
      exact hinv.2 hs
  · refine ⟨hinv.1, fun _ => ?_⟩
    show cur.regex ≠ none
    rw [updateMapping_regex _ _ _ _ hu]
    exact hinv.2 hs

theorem parseConfig_compiled (E : RegexpLib) (fileContents : Str) (st : LoopState E)
    (h : parseConfig E fileContents = .ok st) : ∀ r ∈ st.parsedMappings, r.regex ≠ none := by
  have hstart : (LoopState.start E).Compiled :=
    ⟨fun r hr => (nomatch hr), fun hh => (nomatch hh)⟩
  exact (runLoop_invariant E _ LoopState.Compiled
    (fun i l st st' => loopBody_compiled E _ i l st st') _ 0 _ st hstart h).1

/-- The rules of a reachable store all have a compiled pattern, so `getMapping` never
dereferences a nil pattern. -/
theorem Store.Reachable.compiled {E : RegexpLib} {s : Store E} (hs : Store.Reachable E s) :
    ∀ r ∈ s.m.mappings, r.regex ≠ none := by
  induction hs with
  | initial => intro r hr; cases hr
  | load s fileContents _ ih =>
    unfold initFromString
    cases hp : parseConfig E fileContents with
    | error e => exact ih
    | ok st => exact parseConfig_compiled E fileContents st hp

/-! ## Claims on the matcher -/

/-- C1. First match wins: when no rule before `r` matches the metric name and `r`
matches it, `getMapping` on the whole rule list returns what it returns on `r` alone,
namely `present = true` with no labels for an ignore rule and with the expanded
templates of `r` otherwise; the rules after `r` have no influence. -/
theorem getMapping_first_match_wins (E : RegexpLib) (before after : List (metricMapping E))
    (r : metricMapping E) (re : E.Regexp) (name : Str)
    (hbefore : ∀ b ∈ before, ∃ re', b.regex = some re' ∧
      E.FindStringSubmatchIndex re' name = [])
    (hr : r.regex = some re) (hmatch : E.FindStringSubmatchIndex re name ≠ []) :
    getMapping E ⟨before ++ r :: after⟩ name = getMapping E ⟨[r]⟩ name ∧
    getMapping E ⟨[r]⟩ name =
      .returned (if r.ignore then none
        else some (expandLabels E re name (E.FindStringSubmatchIndex re name) r.labels []),
        true) := by
  have h1 : getMapping E ⟨[r]⟩ name = _ := getMappingLoop_hit E name r [] re hr hmatch
  refine ⟨?_, h1⟩
  rw [h1]
  show getMappingLoop E name (before ++ r :: after) = _
  rw [getMappingLoop_skip E name before (r :: after) hbefore]
  exact getMappingLoop_hit E name r after re hr hmatch

/-- C1, on three rules of which the second and the third match `abc`. -/
theorem getMapping_first_match_wins_witness :
    getMapping goRegexp
        ⟨[exampleRule "zzz" [("name", "none")] false] ++
          exampleRule "a.*" [("name", "first")] false ::
          [exampleRule ".*" [("name", "second")] false]⟩ "abc".toList =
      getMapping goRegexp ⟨[exampleRule "a.*" [("name", "first")] false]⟩ "abc".toList ∧
    getMapping goRegexp ⟨[exampleRule "a.*" [("name", "first")] false]⟩ "abc".toList =
      .returned (some [("name".toList, "first".toList)], true) ∧
    getMapping goRegexp ⟨[exampleRule ".*" [("name", "second")] false]⟩ "abc".toList =
      .returned (some [("name".toList, "second".toList)], true) :=
  ⟨(getMapping_first_match_wins goRegexp [exampleRule "zzz" [("name", "none")] false]
      [exampleRule ".*" [("name", "second")] false]
      (exampleRule "a.*" [("name", "first")] false) exampleRegexA "abc".toList
      (by
        intro b hb
        rw [List.mem_singleton] at hb
        subst hb
        exact ⟨_, rfl, rfl⟩)
      rfl (by decide)).1,
    rfl, rfl⟩

/-- C4. No match: on the rule list of any reachable store (the empty list of a fresh
store included), a metric name that no rule matches yields `present = false` and no
labels, and `getMapping` returns `present = true` exactly when some rule matches. -/
theorem getMapping_present_iff (E : RegexpLib) (s : Store E) (hs : Store.Reachable E s)
    (name : Str) :
    ((∀ r ∈ s.m.mappings, ¬ r.matchesName name) →
        getMapping E s.m name = .returned (none, false)) ∧
    ((∃ labels, getMapping E s.m name = .returned (labels, true)) ↔
        ∃ r ∈ s.m.mappings, r.matchesName name) := by
  rcases getMappingLoop_present E name s.m.mappings hs.compiled with
    ⟨hnone, hres⟩ | ⟨hsome, labels, hres⟩
  · refine ⟨fun _ => hres, ?_, ?_⟩
    · rintro ⟨labels, hl⟩
      unfold getMapping at hl
      rw [hres] at hl
      cases hl
    · rintro ⟨r, hr, hm⟩
      exact absurd hm (hnone r hr)
  · refine ⟨?_, fun _ => hsome, fun _ => ⟨labels, hres⟩⟩
    intro hno
    obtain ⟨r, hr, hm⟩ := hsome
    exact absurd hm (hno r hr)

/-- C4, on a fresh store and on a loaded one. -/
theorem getMapping_present_iff_witness :
    Store.Reachable goRegexp (exampleLoad "a.*\nname=\"first\"\n\n") ∧
    getMapping goRegexp (Store.initial goRegexp).m "abc".toList = .returned (none, false) ∧
    getMapping goRegexp (exampleLoad "a.*\nname=\"first\"\n\n").m "xbc".toList =
      .returned (none, false) ∧
    ((∃ labels, getMapping goRegexp (exampleLoad "a.*\nname=\"first\"\n\n").m "abc".toList =
        .returned (labels, true)) ↔
      ∃ r ∈ (exampleLoad "a.*\nname=\"first\"\n\n").m.mappings, r.matchesName "abc".toList) :=
  ⟨.load _ _ .initial,
    (getMapping_present_iff goRegexp (Store.initial goRegexp) .initial "abc".toList).1
      (fun _ hr => (nomatch hr)),
    rfl,
    (getMapping_present_iff goRegexp (exampleLoad "a.*\nname=\"first\"\n\n")
      (.load _ _ .initial) "abc".toList).2⟩

/-! ## Claims on the loader -/

/-- C5. Fail-closed: when `initFromString` returns an error, the store (rule list and
reported count) is the one before the call, so every `getMapping` answers as before. -/
theorem initFromString_fail_closed (E : RegexpLib) (s : Store E) (fileContents : Str)
    (e : LoadError) (herr : (initFromString E s fileContents).2 = some e) :
    (initFromString E s fileContents).1 = s ∧
    (initFromString E s fileContents).1.m.mappings = s.m.mappings ∧
    (initFromString E s fileContents).1.mappingsCount = s.mappingsCount ∧
    ∀ name, getMapping E (initFromString E s fileContents).1.m name = getMapping E s.m name := by
  unfold initFromString at herr ⊢
  cases hp : parseConfig E fileContents with
  | error e' => exact ⟨rfl, rfl, rfl, fun _ => rfl⟩
  | ok st =>
    rw [hp] at herr
    cases herr

/-- C5, on a text whose second block has a malformed label line: the rule of the first
block is not published and the loaded rule stays. -/
theorem initFromString_fail_closed_witness :
    (initFromString goRegexp (exampleLoad "a.*\nname=\"first\"\n\n")
        "b.*\nname=\"second\"\n\nc.*\nname \"third\"\n\n".toList).2 =
      some (.MalformedLabelLine 4 "name \"third\"".toList) ∧
    (initFromString goRegexp (exampleLoad "a.*\nname=\"first\"\n\n")
        "b.*\nname=\"second\"\n\nc.*\nname \"third\"\n\n".toList).1 =
      exampleLoad "a.*\nname=\"first\"\n\n" ∧
    (exampleLoad "a.*\nname=\"first\"\n\n").mappingsCount = 1 :=
  ⟨rfl,
    (initFromString_fail_closed goRegexp (exampleLoad "a.*\nname=\"first\"\n\n")
      "b.*\nname=\"second\"\n\nc.*\nname \"third\"\n\n".toList
      (.MalformedLabelLine 4 "name \"third\"".toList) rfl).1,
    rfl⟩

/-- In state SEARCHING, blank lines are skipped. -/
theorem runLoop_blank (E : RegexpLib) (n : Nat) (ls : List Str) (i : Nat) (st : LoopState E)
    (hst : st.state = .SEARCHING) (hblank : ∀ l ∈ ls, TrimSpace l = []) :
    runLoop E n ls i st = .ok st := by
  induction ls generalizing i with
  | nil => rfl
  | cons l ls ih =>
    have hl : TrimSpace l = [] := hblank l (List.mem_cons_self l ls)
    have hb : loopBody E n i l st = .ok st := by
      simp only [loopBody, hst, hl, if_true]
    simp only [runLoop, hb]
    exact ih (i + 1) (fun c hc => hblank c (List.mem_cons_of_mem l hc))

/-- C10. Empty configuration: loading the empty text, and any text whose lines are all
blank after trimming, succeeds, publishes the empty rule list and sets the reported
count to zero, so that every later `getMapping` returns `present = false`. -/
theorem initFromString_blank (E : RegexpLib) (s : Store E) (fileContents : Str)
    (hblank : ∀ l ∈ Split fileContents, TrimSpace l = []) :
    initFromString E s [] = (⟨⟨[]⟩, 0⟩, none) ∧
    initFromString E s fileContents = (⟨⟨[]⟩, 0⟩, none) ∧
    ∀ name, getMapping E (initFromString E s fileContents).1.m name =
      .returned (none, false) := by
  have hgen : ∀ t : Str, (∀ l ∈ Split t, TrimSpace l = []) →
      initFromString E s t = (⟨⟨[]⟩, 0⟩, none) := by
    intro t ht
    have hp : parseConfig E t = .ok (LoopState.start E) :=
      runLoop_blank E _ (Split t) 0 (LoopState.start E) rfl ht
    simp only [initFromString, hp]
    rfl
  refine ⟨hgen [] ?_, hgen fileContents hblank, ?_⟩
  · intro l hl
    simp only [Split, List.mem_singleton] at hl
    rw [hl]
    rfl
  · intro name
    rw [hgen fileContents hblank]
    rfl

/-- C10, on a text of three lines of white space, loaded over a store that holds a
rule. -/
theorem initFromString_blank_witness :
    (∀ l ∈ Split "  \n\t\n".toList, TrimSpace l = []) ∧
    initFromString goRegexp (exampleLoad "a.*\nname=\"first\"\n\n") "  \n\t\n".toList =
      (⟨⟨[]⟩, 0⟩, none) ∧
    getMapping goRegexp
        (initFromString goRegexp (exampleLoad "a.*\nname=\"first\"\n\n") "  \n\t\n".toList).1.m
        "abc".toList = .returned (none, false) :=
  ⟨by decide,
    (initFromString_blank goRegexp (exampleLoad "a.*\nname=\"first\"\n\n") "  \n\t\n".toList
      (by decide)).2.1,
    (initFromString_blank goRegexp (exampleLoad "a.*\nname=\"first\"\n\n") "  \n\t\n".toList
      (by decide)).2.2 "abc".toList⟩

/-! ## Label maps -/

theorem Labels.mem_set (l : Labels) (k v : Str) (kv : Str × Str) (h : kv ∈ l.set k v) :
    kv = (k, v) ∨ kv ∈ l := by
  induction l with
  | nil =>
    simp only [Labels.set, List.mem_singleton] at h
    exact Or.inl h
  | cons hd tl ih =>
    obtain ⟨k', v'⟩ := hd
    simp only [Labels.set] at h
    by_cases hk : k' = k
    · rw [if_pos hk] at h
      rcases List.mem_cons.mp h with h1 | h1
      · exact Or.inl h1
      · exact Or.inr (List.mem_cons_of_mem _ h1)
    · rw [if_neg hk] at h
      rcases List.mem_cons.mp h with h1 | h1
      · exact Or.inr (h1 ▸ List.mem_cons_self _ _)
      · rcases ih h1 with h2 | h2
        · exact Or.inl h2
        · exact Or.inr (List.mem_cons_of_mem _ h2)

theorem Labels.set_of_not_mem (l : Labels) (k v : Str) (h : k ∉ l.keys) :
    l.set k v = l ++ [(k, v)] := by
  induction l with
  | nil => rfl
  | cons hd tl ih =>
    obtain ⟨k', v'⟩ := hd
    simp only [Labels.keys, List.map_cons, List.mem_cons, not_or] at h
    have hk : ¬ k' = k := fun hh => h.1 hh.symm
    simp only [Labels.set, if_neg hk, List.cons_append]
    rw [ih h.2]

theorem Labels.keys_set (l : Labels) (k v : Str) :
    (l.set k v).keys = if k ∈ l.keys then l.keys else l.keys ++ [k] := by
  induction l with
  | nil => simp [Labels.set, Labels.keys]
  | cons hd tl ih =>
    obtain ⟨k', v'⟩ := hd
    by_cases hk : k' = k
    · subst hk
      simp [Labels.set, Labels.keys]
    · have hk' : ¬ k = k' := fun hh => hk hh.symm
      simp only [Labels.set, if_neg hk]
      simp only [Labels.keys, List.map_cons, List.mem_cons, hk', false_or] at ih ⊢
      rw [ih]
      split <;> simp

theorem Labels.nodup_set (l : Labels) (k v : Str) (h : l.keys.Nodup) :
    (l.set k v).keys.Nodup := by
  rw [Labels.keys_set]
  split
  · exact h
  · rename_i hk
    rw [List.nodup_append]
    refine ⟨h, List.nodup_singleton k, ?_⟩
    intro a ha hb
    rw [List.mem_singleton] at hb
    exact hk (hb ▸ ha)

theorem Labels.get_mem (l : Labels) (k v : Str) (h : l.get k = some v) : (k, v) ∈ l := by
  induction l with
  | nil => cases h
  | cons hd tl ih =>
    obtain ⟨k', v'⟩ := hd
    simp only [Labels.get] at h
    by_cases hk : k' = k
    · rw [if_pos hk] at h
      cases h
      rw [hk]
      exact List.mem_cons_self _ _
    · rw [if_neg hk] at h
      exact List.mem_cons_of_mem _ (ih h)

theorem Labels.get_map (l : Labels) (f : Str → Str) (k : Str) :
    Labels.get (l.map (fun kv => (kv.1, f kv.2))) k = (l.get k).map f := by
  induction l with
  | nil => rfl
  | cons hd tl ih =>
    obtain ⟨k', v'⟩ := hd
    simp only [List.map_cons, Labels.get]
    by_cases hk : k' = k
    · simp [hk]
    · simp only [if_neg hk]
      exact ih

theorem Labels.keys_map (l : Labels) (f : Str → Str) :
    Labels.keys (l.map (fun kv => (kv.1, f kv.2))) = l.keys := by
  simp [Labels.keys, List.map_map, Function.comp_def]

/-- On templates with distinct keys, the label map built by `getMapping` has the
keys of the templates, in the same order, each with its expanded template. -/
theorem expandLabels_eq_map (E : RegexpLib) (re : E.Regexp) (name : Str) (sub : List Int)
    (l acc : Labels) (h : (acc.keys ++ l.keys).Nodup) :
    expandLabels E re name sub l acc =
      acc ++ l.map (fun kv => (kv.1, E.ExpandString re kv.2 name sub)) := by
  induction l generalizing acc with
  | nil => simp [expandLabels]
  | cons hd tl ih =>
    obtain ⟨k, v⟩ := hd
    have hk : k ∉ acc.keys := by
      intro hmem
      rw [List.nodup_append] at h
      exact h.2.2 hmem (by simp [Labels.keys])
    simp only [expandLabels]
    rw [Labels.set_of_not_mem acc k _ hk, ih]
    · simp
    · have : (acc ++ [(k, E.ExpandString re v name sub)]).keys ++ Labels.keys tl =
          acc.keys ++ Labels.keys ((k, v) :: tl) := by
        simp [Labels.keys]
      rw [this]
      exact h

/-! ## The label maps of parsed rules -/

theorem updateMapping_labelsOK {E : RegexpLib} (line : Str) (i : Nat)
    (mapping cur : metricMapping E) (h : updateMapping line i mapping = .ok cur)
    (hv : mapping.labels.NameValid) (hn : mapping.labels.keys.Nodup) :
    cur.labels.NameValid ∧ cur.labels.keys.Nodup := by
  obtain ⟨_, label, value, _, hname, h3⟩ := updateMapping_ok_cases line i mapping cur h
  rcases h3 with ⟨_, _, rfl⟩ | ⟨_, rfl⟩
  · exact ⟨hv, hn⟩
  · refine ⟨?_, Labels.nodup_set _ _ _ hn⟩
    intro v hmem
    rcases Labels.mem_set _ _ _ _ hmem with heq | hold
    · simp only [Prod.mk.injEq] at heq
      by_contra hbad
      exact hname ⟨heq.1.symm, by rw [← heq.2]; exact hbad⟩
    · exact hv v hold

theorem loopBody_labelsOK (E : RegexpLib) (n i : Nat) (l : Str) (st st' : LoopState E)
    (hinv : st.LabelsOK) (h : loopBody E n i l st = .ok st') : st'.LabelsOK := by
  rcases loopBody_ok_cases E n i l st st' h with
    ⟨_, _, rfl⟩ | ⟨_, _, re, _, rfl⟩ | ⟨_, _, h1, h2, rfl⟩ | ⟨_, _, _, cur, hu, rfl⟩
  · exact hinv
  · exact hinv
  · refine ⟨?_, fun v hv => (nomatch hv), List.nodup_nil⟩
    intro r hr
    rcases List.mem_append.mp hr with hr' | hr'
    · exact hinv.1 r hr'
    · rw [List.mem_singleton] at hr'
      subst hr'
      refine ⟨?_, hinv.2.1, hinv.2.2⟩
      intro hign
      constructor
      · intro hnil
        exact h1 ⟨hign, by rw [hnil]; rfl⟩
      · cases hg : st.currentMapping.labels.get "name".toList with
        | none => exact absurd ⟨hign, hg⟩ h2
        | some v => exact ⟨v, rfl⟩
  · exact ⟨hinv.1, updateMapping_labelsOK _ _ _ _ hu hinv.2.1 hinv.2.2⟩

theorem parseConfig_labelsOK (E : RegexpLib) (fileContents : Str) (st : LoopState E)
    (h : parseConfig E fileContents = .ok st) :
    ∀ r ∈ st.parsedMappings, r.Complete ∧ r.labels.NameValid ∧ r.labels.keys.Nodup := by
  have hstart : (LoopState.start E).LabelsOK :=
    ⟨fun r hr => (nomatch hr), fun v hv => (nomatch hv), List.nodup_nil⟩
  exact (runLoop_invariant E _ LoopState.LabelsOK
    (fun i l st st' => loopBody_labelsOK E _ i l st st') _ 0 _ st hstart h).1

/-- A successful call publishes the rules parsed by the loop. -/
theorem initFromString_ok (E : RegexpLib) (s : Store E) (fileContents : Str)
    (h : (initFromString E s fileContents).2 = none) :
    ∃ st, parseConfig E fileContents = .ok st ∧
      initFromString E s fileContents =
        (⟨⟨st.parsedMappings⟩, st.parsedMappings.length⟩, none) := by
  unfold initFromString at h ⊢
  cases hp : parseConfig E fileContents with
  | error e => rw [hp] at h; cases h
  | ok st => exact ⟨st, rfl, rfl⟩

theorem metricNameRE_MatchString_iff (v : Str) :
    metricNameRE_MatchString v = true ↔ IsIdentifier v := by
  constructor
  · intro h
    match v, h with
    | c :: d :: rest, h =>
      simp only [metricNameRE_MatchString, Bool.and_eq_true, List.all_eq_true] at h
      refine ⟨c, d :: rest, rfl, h.1.1, List.cons_ne_nil _ _, ?_⟩
      intro x hx
      rcases List.mem_cons.mp hx with rfl | hx'
      · exact h.1.2
      · exact h.2 x hx'
  · rintro ⟨c, rest, rfl, hc, hne, hall⟩
    cases rest with
    | nil => exact absurd rfl hne
    | cons d rest =>
      simp only [metricNameRE_MatchString, Bool.and_eq_true, List.all_eq_true]
      exact ⟨⟨hc, hall d (List.mem_cons_self _ _)⟩,
        fun x hx => hall x (List.mem_cons_of_mem _ hx)⟩

/-- C9. Rule invariant: after a successful `initFromString`, every published rule whose
ignore flag is false has a non-empty label map that contains the key `name`, and every
value stored under `name` passed `metricNameRE` and so has identifier syntax
`[a-zA-Z_][a-zA-Z0-9_]+` in its entirety. -/
theorem initFromString_rule_invariant (E : RegexpLib) (s : Store E) (fileContents : Str)
    (hload : (initFromString E s fileContents).2 = none) (r : metricMapping E)
    (hr : r ∈ (initFromString E s fileContents).1.m.mappings) (hign : r.ignore = false) :
    r.labels ≠ [] ∧
    (∃ v, r.labels.get "name".toList = some v ∧ metricNameRE_MatchString v = true ∧
      IsIdentifier v) ∧
    ∀ v, ("name".toList, v) ∈ r.labels → IsIdentifier v := by
  obtain ⟨st, hp, heq⟩ := initFromString_ok E s fileContents hload
  rw [heq] at hr
  obtain ⟨hc, hv, _⟩ := parseConfig_labelsOK E fileContents st hp r hr
  obtain ⟨hne, v, hget⟩ := hc hign
  have hvalid := hv v (Labels.get_mem _ _ _ hget)
  exact ⟨hne, ⟨v, hget, hvalid, (metricNameRE_MatchString_iff v).mp hvalid⟩,
    fun w hw => (metricNameRE_MatchString_iff w).mp (hv w hw)⟩

/-- C9, on a block that assigns `name` twice. -/
theorem initFromString_rule_invariant_witness :
    (initFromString goRegexp (Store.initial goRegexp)
        "a.*\nname=\"first\"\nzone=\"$1\"\nname=\"again\"\n\n".toList).2 = none ∧
    (exampleRule "a.*" [("name", "again"), ("zone", "$1")] false).labels ≠ [] ∧
    (∃ v, (exampleRule "a.*" [("name", "again"), ("zone", "$1")] false).labels.get
        "name".toList = some v ∧ metricNameRE_MatchString v = true ∧ IsIdentifier v) ∧
    ∀ v, ("name".toList, v) ∈
        (exampleRule "a.*" [("name", "again"), ("zone", "$1")] false).labels →
      IsIdentifier v :=
  ⟨rfl,
    initFromString_rule_invariant goRegexp (Store.initial goRegexp)
      "a.*\nname=\"first\"\nzone=\"$1\"\nname=\"again\"\n\n".toList rfl
      (exampleRule "a.*" [("name", "again"), ("zone", "$1")] false)
      (List.mem_singleton.mpr rfl) rfl⟩

/-- C2. Template expansion: after a successful `initFromString`, for a metric name whose
first matching rule `r` is not ignore-only, `getMapping` returns `present = true` and
the label map that has the keys of the label templates of `r`, each with the value
`ExpandString` gives for the template, the metric name and the match of the pattern of
`r` on the metric name. -/
theorem getMapping_expands_templates (E : RegexpLib) (s : Store E) (fileContents : Str)
    (hload : (initFromString E s fileContents).2 = none)
    (before after : List (metricMapping E)) (r : metricMapping E) (re : E.Regexp)
    (name : Str)
    (hrules : (initFromString E s fileContents).1.m.mappings = before ++ r :: after)
    (hbefore : ∀ b ∈ before, ¬ b.matchesName name)
    (hr : r.regex = some re) (hmatch : E.FindStringSubmatchIndex re name ≠ [])
    (hign : r.ignore = false) :
    getMapping E (initFromString E s fileContents).1.m name =
      .returned (some (r.labels.map (fun kv =>
        (kv.1, E.ExpandString re kv.2 name (E.FindStringSubmatchIndex re name)))), true) ∧
    Labels.keys (r.labels.map (fun kv =>
        (kv.1, E.ExpandString re kv.2 name (E.FindStringSubmatchIndex re name)))) =
      r.labels.keys ∧
    ∀ k, Labels.get (r.labels.map (fun kv =>
        (kv.1, E.ExpandString re kv.2 name (E.FindStringSubmatchIndex re name)))) k =
      (r.labels.get k).map
        (fun t => E.ExpandString re t name (E.FindStringSubmatchIndex re name)) := by
  refine ⟨?_, Labels.keys_map r.labels
    (fun t => E.ExpandString re t name (E.FindStringSubmatchIndex re name)),
    fun k => Labels.get_map r.labels
    (fun t => E.ExpandString re t name (E.FindStringSubmatchIndex re name)) k⟩
  obtain ⟨st, hp, heq⟩ := initFromString_ok E s fileContents hload
  have hmem : ∀ b ∈ before ++ r :: after,
      b.regex ≠ none ∧ b.labels.keys.Nodup := by
    intro b hb
    rw [← hrules, heq] at hb
    exact ⟨parseConfig_compiled E fileContents st hp b hb,
      (parseConfig_labelsOK E fileContents st hp b hb).2.2⟩
  have hbefore' : ∀ b ∈ before, ∃ re', b.regex = some re' ∧
      E.FindStringSubmatchIndex re' name = [] := by
    intro b hb
    cases hreg : b.regex with
    | none => exact absurd hreg (hmem b (List.mem_append_left _ hb)).1
    | some re' =>
      refine ⟨re', rfl, ?_⟩
      by_contra hne
      exact hbefore b hb ⟨re', hreg, hne⟩
  have hnodup : r.labels.keys.Nodup :=
    (hmem r (List.mem_append_right _ (List.mem_cons_self _ _))).2
  unfold getMapping
  rw [hrules, getMappingLoop_skip E name before (r :: after) hbefore',
    getMappingLoop_hit E name r after re hr hmatch, hign,
    expandLabels_eq_map E re name _ r.labels [] (by simpa [Labels.keys] using hnodup)]
  simp

/-- C2, on the example of the specification: `api.users.latency` is mapped to
`name = api_latency`, `path = users`. -/
theorem getMapping_expands_templates_witness :
    (initFromString goRegexp (Store.initial goRegexp) exampleApiConfig).2 = none ∧
    getMapping goRegexp (initFromString goRegexp (Store.initial goRegexp) exampleApiConfig).1.m
        "api.users.latency".toList =
      .returned (some [("name".toList, "api_latency".toList),
        ("path".toList, "users".toList)], true) :=
  ⟨rfl,
    (getMapping_expands_templates goRegexp (Store.initial goRegexp) exampleApiConfig rfl
      [] []
      ⟨some exampleRegexApi,
        [("name".toList, "api_latency".toList), ("path".toList, "$\x7b1\x7d".toList)], false⟩
      exampleRegexApi "api.users.latency".toList rfl (fun _ hb => (nomatch hb)) rfl
      (by decide) rfl).1⟩

/-! ## Blocks -/

/-- Inside a block, a non-blank line that is accepted changes the rule in progress
only: the pattern stays, and the ignore flag stays set and is set by an ignore line. -/
theorem loopBody_label_line (E : RegexpLib) (n i : Nat) (l : Str) (st st' : LoopState E)
    (hst : st.state = .METRIC_DEFINITION) (hl : TrimSpace l ≠ [])
    (h : loopBody E n i l st = .ok st') :
    st'.state = .METRIC_DEFINITION ∧ st'.parsedMappings = st.parsedMappings ∧
    st'.currentMapping.regex = st.currentMapping.regex ∧
    (st.currentMapping.ignore = true ∨ IsIgnoreLine l → st'.currentMapping.ignore = true) := by
  rcases loopBody_ok_cases E n i l st st' h with
    ⟨hs, _, _⟩ | ⟨hs, _, _⟩ | ⟨_, hb, _⟩ | ⟨_, _, _, cur, hu, rfl⟩
  · rw [hst] at hs; cases hs
  · rw [hst] at hs; cases hs
  · exact absurd hb hl
  · refine ⟨hst, rfl, updateMapping_regex _ _ _ _ hu, ?_⟩
    obtain ⟨whole, label, value, hm, _, h3⟩ := updateMapping_ok_cases _ _ _ _ hu
    intro hor
    rcases h3 with ⟨_, _, rfl⟩ | ⟨hnot, rfl⟩
    · rfl
    · rcases hor with hign | ⟨w, hw⟩
      · exact hign
      · rw [hw] at hm
        simp only [List.cons.injEq, and_true] at hm
        exact absurd ⟨hm.2.1.symm, hm.2.2.symm⟩ hnot

theorem runLoop_block_body (E : RegexpLib) (n : Nat) (body : List Str) (i : Nat)
    (st st' : LoopState E) (hst : st.state = .METRIC_DEFINITION)
    (hbody : ∀ l ∈ body, TrimSpace l ≠ []) (h : runLoop E n body i st = .ok st') :
    st'.state = .METRIC_DEFINITION ∧ st'.parsedMappings = st.parsedMappings ∧
    st'.currentMapping.regex = st.currentMapping.regex ∧
    (st.currentMapping.ignore = true ∨ (∃ l ∈ body, IsIgnoreLine l) →
      st'.currentMapping.ignore = true) := by
  induction body generalizing i st with
  | nil =>
    simp only [runLoop, Except.ok.injEq] at h
    subst h
    refine ⟨hst, rfl, rfl, ?_⟩
    rintro (hi | ⟨l, hl, _⟩)
    · exact hi
    · cases hl
  | cons l ls ih =>
    simp only [runLoop] at h
    cases hb : loopBody E n i l st with
    | error e => rw [hb] at h; cases h
    | ok st1 =>
      rw [hb] at h
      obtain ⟨h1, h2, h3, h4⟩ :=
        loopBody_label_line E n i l st st1 hst (hbody l (List.mem_cons_self _ _)) hb
      obtain ⟨g1, g2, g3, g4⟩ :=
        ih (i + 1) st1 h1 (fun c hc => hbody c (List.mem_cons_of_mem _ hc)) h
      refine ⟨g1, g2.trans h2, g3.trans h3, ?_⟩
      rintro (hi | ⟨c, hc, hign⟩)
      · exact g4 (Or.inl (h4 (Or.inl hi)))
      · rcases List.mem_cons.mp hc with rfl | hc'
        · exact g4 (Or.inl (h4 (Or.inr hign)))
        · exact g4 (Or.inr ⟨c, hc', hign⟩)

/-- The loop only appends to the parsed rules. -/
theorem runLoop_parsed_extends (E : RegexpLib) (n : Nat) (ls : List Str) (i : Nat)
    (st st' : LoopState E) (h : runLoop E n ls i st = .ok st') :
    ∃ extra, st'.parsedMappings = st.parsedMappings ++ extra := by
  refine runLoop_invariant E n (fun x => ∃ extra, x.parsedMappings = st.parsedMappings ++ extra)
    ?_ ls i st st' ⟨[], by simp⟩ h
  intro j l a b ⟨extra, hx⟩ hb
  rcases loopBody_ok_cases E n j l a b hb with
    ⟨_, _, rfl⟩ | ⟨_, _, re, _, rfl⟩ | ⟨_, _, _, _, rfl⟩ | ⟨_, _, _, cur, _, rfl⟩
  · exact ⟨extra, hx⟩
  · exact ⟨extra, hx⟩
  · exact ⟨extra ++ [a.currentMapping], by simp [hx]⟩
  · exact ⟨extra, hx⟩

/-- A block read from state SEARCHING: a pattern line, non-blank lines, a blank line.
If the loop gets through it, the rule in progress at the blank line is appended. -/
theorem runLoop_block (E : RegexpLib) (n : Nat) (p : Str) (body : List Str) (blank : Str)
    (rest : List Str) (i : Nat) (st0 stF : LoopState E) (hst : st0.state = .SEARCHING)
    (hp : TrimSpace p ≠ []) (hbody : ∀ l ∈ body, TrimSpace l ≠ [])
    (hblank : TrimSpace blank = [])
    (h : runLoop E n (p :: (body ++ blank :: rest)) i st0 = .ok stF) :
    ∃ re cur extra, E.Compile ('^' :: TrimSpace p ++ ['$']) = .ok re ∧
      cur.regex = some re ∧
      (st0.currentMapping.ignore = true ∨ (∃ l ∈ body, IsIgnoreLine l) → cur.ignore = true) ∧
      stF.parsedMappings = st0.parsedMappings ++ cur :: extra := by
  simp only [runLoop] at h
  cases hb : loopBody E n i p st0 with
  | error e => rw [hb] at h; cases h
  | ok st1 =>
    simp only [hb] at h
    rcases loopBody_ok_cases E n i p st0 st1 hb with
      ⟨_, hbl, _⟩ | ⟨_, _, re, hc, hst1⟩ | ⟨hs, _, _⟩ | ⟨hs, _, _⟩
    · exact absurd hbl hp
    · rw [runLoop_append] at h
      cases hbd : runLoop E n body (i + 1) st1 with
      | error e => rw [hbd] at h; cases h
      | ok st2 =>
        simp only [hbd, runLoop] at h
        have hst1s : st1.state = .METRIC_DEFINITION := by rw [hst1]
        obtain ⟨g1, g2, g3, g4⟩ := runLoop_block_body E n body (i + 1) st1 st2 hst1s hbody hbd
        cases hcl : loopBody E n (i + 1 + body.length) blank st2 with
        | error e => rw [hcl] at h; cases h
        | ok st3 =>
          simp only [hcl] at h
          rcases loopBody_ok_cases E n _ blank st2 st3 hcl with
            ⟨hs, _, _⟩ | ⟨hs, _, _⟩ | ⟨_, _, _, _, hst3⟩ | ⟨_, hnb, _⟩
          · rw [g1] at hs; cases hs
          · rw [g1] at hs; cases hs
          · obtain ⟨extra, hex⟩ := runLoop_parsed_extends E n rest _ st3 stF h
            refine ⟨re, st2.currentMapping, extra, hc, ?_, ?_, ?_⟩
            · rw [g3, hst1]
            · intro hor
              apply g4
              rcases hor with hi | hex'
              · left
                rw [hst1]
                exact hi
              · exact Or.inr hex'
            · rw [hex, hst3, g2, hst1]
              simp
          · exact absurd hblank hnb
    · rw [hst] at hs; cases hs
    · rw [hst] at hs; cases hs

theorem Split_append_newline (p t : Str) (hp : '\n' ∉ p) :
    Split (p ++ '\n' :: t) = p :: Split t := by
  induction p with
  | nil => simp [Split]
  | cons c cs ih =>
    have hc : ¬ c = '\n' := fun hh => hp (hh ▸ List.mem_cons_self _ _)
    have hcs : '\n' ∉ cs := fun hh => hp (List.mem_cons_of_mem _ hh)
    have ih' : Split (cs.append ('\n' :: t)) = cs :: Split t := ih hcs
    simp only [List.cons_append, Split, if_neg hc, ih']

theorem ignoreLine_isIgnoreLine : IsIgnoreLine ignoreLine := ⟨ignoreLine, by decide⟩

/-- A block made of a pattern line and the line `ignore = "true"` is accepted: the
text loads and publishes one ignore-only rule without labels. -/
theorem initFromString_ignore_only (E : RegexpLib) (s : Store E) (pat : Str) (re : E.Regexp)
    (hnl : '\n' ∉ pat) (hpat : TrimSpace pat ≠ [])
    (hc : E.Compile ('^' :: TrimSpace pat ++ ['$']) = .ok re) :
    initFromString E s (pat ++ '\n' :: (ignoreLine ++ "\n\n".toList)) =
      (⟨⟨[⟨some re, [], true⟩]⟩, 1⟩, none) := by
  have hs : Split (pat ++ '\n' :: (ignoreLine ++ "\n\n".toList)) = [pat, ignoreLine, [], []] := by
    rw [Split_append_newline pat _ hnl]
    rfl
  have h1 : loopBody E 4 0 pat (LoopState.start E) =
      .ok ⟨.METRIC_DEFINITION, [], ⟨some re, [], false⟩⟩ := by
    simp only [loopBody, LoopState.start, if_neg hpat, hc, freshMapping]
  have h2 : loopBody E 4 1 ignoreLine ⟨.METRIC_DEFINITION, [], ⟨some re, [], false⟩⟩ =
      .ok ⟨.METRIC_DEFINITION, [], ⟨some re, [], true⟩⟩ := rfl
  have h3 : loopBody E 4 2 [] ⟨.METRIC_DEFINITION, [], ⟨some re, [], true⟩⟩ =
      .ok ⟨.SEARCHING, [⟨some re, [], true⟩], freshMapping E⟩ := rfl
  have h4 : loopBody E 4 3 [] ⟨.SEARCHING, [⟨some re, [], true⟩], freshMapping E⟩ =
      .ok ⟨.SEARCHING, [⟨some re, [], true⟩], freshMapping E⟩ := rfl
  have hp : parseConfig E (pat ++ '\n' :: (ignoreLine ++ "\n\n".toList)) =
      .ok ⟨.SEARCHING, [⟨some re, [], true⟩], freshMapping E⟩ := by
    unfold parseConfig
    simp only [hs, List.length_cons, List.length_nil, runLoop, h1, h2, h3, h4]
  simp only [initFromString, hp]
  rfl

/-- C3. Ignore semantics.  Take a text that loads, and in it a block read as a block
(the loop is in state SEARCHING when it reaches the pattern line `p`) whose label
lines include a line `ignore = "true"`, anywhere among them and whatever the other
label lines are.  Then the block publishes a rule with the ignore flag set, and for
every metric name whose first matching rule it is, `getMapping` returns
`present = true` and no labels.  Moreover a block made only of a pattern line and the
line `ignore = "true"` loads, without a `name` label. -/
theorem ignore_block_lookup (E : RegexpLib) (s : Store E) (fileContents : Str)
    (before : List Str) (p : Str) (body : List Str) (blank : Str) (after : List Str)
    (st0 : LoopState E)
    (hload : (initFromString E s fileContents).2 = none)
    (hsplit : Split fileContents = before ++ p :: (body ++ blank :: after))
    (hbefore : runLoop E (Split fileContents).length before 0 (LoopState.start E) = .ok st0)
    (hst0 : st0.state = .SEARCHING)
    (hp : TrimSpace p ≠ []) (hbody : ∀ l ∈ body, TrimSpace l ≠ [])
    (hblank : TrimSpace blank = [])
    (hign : ∃ l ∈ body, IsIgnoreLine l) :
    (∃ re r extra, E.Compile ('^' :: TrimSpace p ++ ['$']) = .ok re ∧
      r.regex = some re ∧ r.ignore = true ∧
      (initFromString E s fileContents).1.m.mappings = st0.parsedMappings ++ r :: extra ∧
      ∀ name, (∀ b ∈ st0.parsedMappings, ¬ b.matchesName name) →
        E.FindStringSubmatchIndex re name ≠ [] →
        getMapping E (initFromString E s fileContents).1.m name = .returned (none, true)) ∧
    (∀ (s' : Store E) (pat : Str) (re : E.Regexp), '\n' ∉ pat → TrimSpace pat ≠ [] →
      E.Compile ('^' :: TrimSpace pat ++ ['$']) = .ok re →
      initFromString E s' (pat ++ '\n' :: (ignoreLine ++ "\n\n".toList)) =
        (⟨⟨[⟨some re, [], true⟩]⟩, 1⟩, none)) := by
  refine ⟨?_, fun s' pat re => initFromString_ignore_only E s' pat re⟩
  obtain ⟨stF, hparse, heq⟩ := initFromString_ok E s fileContents hload
  have hrun : runLoop E (Split fileContents).length
      (before ++ p :: (body ++ blank :: after)) 0 (LoopState.start E) = .ok stF := by
    rw [← hsplit]
    exact hparse
  rw [runLoop_append] at hrun
  simp only [hbefore] at hrun
  obtain ⟨re, r, extra, hc, hreg, hflag, hparsed⟩ :=
    runLoop_block E _ p body blank after _ st0 stF hst0 hp hbody hblank hrun
  have hri : r.ignore = true := hflag (Or.inr hign)
  have hmap : (initFromString E s fileContents).1.m.mappings = st0.parsedMappings ++ r :: extra := by
    rw [heq]
    exact hparsed
  refine ⟨re, r, extra, hc, hreg, hri, hmap, ?_⟩
  intro name hno hmatch
  have hcomp : ∀ b ∈ st0.parsedMappings, b.regex ≠ none := by
    intro b hb
    apply parseConfig_compiled E fileContents stF hparse b
    rw [hparsed]
    exact List.mem_append_left _ hb
  have hno' : ∀ b ∈ st0.parsedMappings, ∃ re', b.regex = some re' ∧
      E.FindStringSubmatchIndex re' name = [] := by
    intro b hb
    cases hbr : b.regex with
    | none => exact absurd hbr (hcomp b hb)
    | some re' =>
      refine ⟨re', rfl, ?_⟩
      by_contra hne
      exact hno b hb ⟨re', hbr, hne⟩
  unfold getMapping
  rw [hmap, getMappingLoop_skip E name _ _ hno', getMappingLoop_hit E name r extra re hreg hmatch,
    hri]
  rfl

/-- C3, on a second block whose ignore line stands between two other label lines, and
on the block made of a pattern line and the ignore line. -/
theorem ignore_block_lookup_witness :
    (initFromString goRegexp (Store.initial goRegexp)
        ("zzz\nname=\"none\"\n\n".toList ++ exampleIgnoreConfig)).2 = none ∧
    getMapping goRegexp (initFromString goRegexp (Store.initial goRegexp)
        ("zzz\nname=\"none\"\n\n".toList ++ exampleIgnoreConfig)).1.m "abc".toList =
      .returned (none, true) ∧
    initFromString goRegexp (Store.initial goRegexp)
        ("a.*".toList ++ '\n' :: (ignoreLine ++ "\n\n".toList)) =
      (⟨⟨[⟨some exampleRegexA, [], true⟩]⟩, 1⟩, none) := by
  have h := ignore_block_lookup goRegexp (Store.initial goRegexp)
    ("zzz\nname=\"none\"\n\n".toList ++ exampleIgnoreConfig)
    ["zzz".toList, "name=\"none\"".toList, []] "a.*".toList
    ["zone=\"$1\"".toList, ignoreLine, "name=\"first\"".toList] [] [[]]
    ⟨.SEARCHING, [exampleRule "zzz" [("name", "none")] false], freshMapping goRegexp⟩
    rfl rfl rfl rfl (by decide) (by decide) rfl
    ⟨ignoreLine, by decide, ignoreLine_isIgnoreLine⟩
  refine ⟨rfl, ?_, h.2 (Store.initial goRegexp) "a.*".toList exampleRegexA (by decide)
    (by decide) rfl⟩
  obtain ⟨re, r, extra, hc, _, _, _, hlook⟩ := h.1
  have hre : re = exampleRegexA := by
    have hc' : goRegexp.Compile ('^' :: TrimSpace "a.*".toList ++ ['$']) =
        .ok exampleRegexA := rfl
    rw [hc'] at hc
    exact (Except.ok.inj hc).symm
  subst hre
  refine hlook "abc".toList ?_ (by decide)
  intro b hb
  rw [List.mem_singleton] at hb
  subst hb
  rintro ⟨re', h1, h2⟩
  have h1' : re' = (goRegexp.Compile "^zzz$".toList).toOption.getD (.empty, 0) := by
    have : (exampleRule "zzz" [("name", "none")] false).regex =
        some ((goRegexp.Compile "^zzz$".toList).toOption.getD (.empty, 0)) := rfl
    rw [this] at h1
    exact (Option.some.inj h1).symm
  subst h1'
  exact h2 rfl

/-! ## Evaluations -/

/-- C6, evaluated on the pattern line `a|b` and the metric name `ax`.  The pattern
`a|b` does not match the entire string `ax`, but the loader compiles `^a|b$`, in which
each anchor belongs to one branch of the alternation, and `getMapping` reports the rule
as matching `ax` (and `xb`). -/
theorem anchors_bind_inside_alternation :
    goRegexp.Compile "a|b".toList = .ok (.alt (.lit 'a') (.lit 'b'), 0) ∧
    Rx.matchesWhole (.alt (.lit 'a') (.lit 'b')) "ax".toList = false ∧
    Rx.matchesWhole (.alt (.lit 'a') (.lit 'b')) "xb".toList = false ∧
    goRegexp.Compile "^a|b$".toList =
      .ok (.alt (.cat .beginText (.lit 'a')) (.cat (.lit 'b') .endText), 0) ∧
    (initFromString goRegexp (Store.initial goRegexp) "a|b\nname=\"ab\"\n\n".toList).2 = none ∧
    getMapping goRegexp
        (initFromString goRegexp (Store.initial goRegexp) "a|b\nname=\"ab\"\n\n".toList).1.m
        "ax".toList = .returned (some [("name".toList, "ab".toList)], true) ∧
    getMapping goRegexp
        (initFromString goRegexp (Store.initial goRegexp) "a|b\nname=\"ab\"\n\n".toList).1.m
        "xb".toList = .returned (some [("name".toList, "ab".toList)], true) :=
  ⟨rfl, rfl, rfl, rfl, rfl, rfl, rfl⟩

/-- C7, evaluated on texts whose final line is a pattern line.  The one-line text
`foo` loads: the loop ends in state METRIC_DEFINITION and the open block is dropped.
The text of a complete block followed by the line `foo` loads as well and publishes one
rule for two pattern lines. -/
theorem final_pattern_line_is_accepted :
    parseConfig goRegexp "foo".toList =
      .ok ⟨.METRIC_DEFINITION, [], (exampleRule "foo" [] false)⟩ ∧
    initFromString goRegexp (Store.initial goRegexp) "foo".toList = (⟨⟨[]⟩, 0⟩, none) ∧
    initFromString goRegexp (Store.initial goRegexp) "a.*\nname=\"first\"\n\nfoo".toList =
      (⟨⟨[exampleRule "a.*" [("name", "first")] false]⟩, 1⟩, none) :=
  ⟨rfl, rfl, rfl⟩

/-- C8, evaluated on two failing texts.  An invalid pattern on the first line is
reported with the number 0, and a two-line text that lacks the blank line after its
only block is reported with the number 1: the number printed is the index of the line
in the slice of lines, counted from 0. -/
theorem error_line_number_is_index :
    (∃ err, (initFromString goRegexp (Store.initial goRegexp) "(".toList).2 =
      some (.InvalidPattern 0 err "(".toList)) ∧
    ((initFromString goRegexp (Store.initial goRegexp) "(".toList).2.map
      LoadError.lineNumber) = some 0 ∧
    (Split "a.*\nname=\"first\"".toList).length = 2 ∧
    (initFromString goRegexp (Store.initial goRegexp) "a.*\nname=\"first\"".toList).2 =
      some (.MissingTerminatingBlankLine 1) :=
  ⟨⟨_, rfl⟩, rfl, rfl, rfl⟩

/-- A failed call returns the store it was given. -/
theorem initFromString_fail_closed_aux (E : RegexpLib) (s : Store E) (fileContents : Str)
    (e : LoadError) (herr : (initFromString E s fileContents).2 = some e) :
    (initFromString E s fileContents).1 = s := by
  unfold initFromString at herr ⊢
  cases hp : parseConfig E fileContents with
  | error e' => rfl
  | ok st =>
    rw [hp] at herr
    cases herr

/-! ## Claims on the store -/

/-- C11. Wholesale replacement: when `initFromString` succeeds on a text, the rule
list and count it leaves are the ones parsed from the text, whatever the store was
before; so loading the text after any other load, or a second time, leaves the same
store as loading it once. -/
theorem initFromString_replaces (E : RegexpLib) (s s' s1 : Store E) (c c1 : Str)
    (hload : (initFromString E s c).2 = none) :
    (∃ st, parseConfig E c = .ok st ∧
      (initFromString E s c).1 = ⟨⟨st.parsedMappings⟩, st.parsedMappings.length⟩) ∧
    initFromString E s' c = initFromString E s c ∧
    initFromString E (initFromString E s1 c1).1 c = initFromString E s c ∧
    initFromString E (initFromString E s c).1 c = initFromString E s c := by
  obtain ⟨st, hp, heq⟩ := initFromString_ok E s c hload
  have hany : ∀ t : Store E, initFromString E t c =
      (⟨⟨st.parsedMappings⟩, st.parsedMappings.length⟩, none) := by
    intro t
    simp only [initFromString, hp]
  refine ⟨⟨st, hp, by rw [heq]⟩, ?_, ?_, ?_⟩
  · rw [hany s', hany s]
  · rw [hany _, hany s]
  · rw [hany _, hany s]

/-- C11, on a store that holds the rule of an earlier load. -/
theorem initFromString_replaces_witness :
    (initFromString goRegexp (Store.initial goRegexp) "b.*\nname=\"second\"\n\n".toList).2 =
      none ∧
    (initFromString goRegexp (exampleLoad "a.*\nname=\"first\"\n\n")
        "b.*\nname=\"second\"\n\n".toList).1.m.mappings =
      [exampleRule "b.*" [("name", "second")] false] ∧
    initFromString goRegexp (exampleLoad "a.*\nname=\"first\"\n\n")
        "b.*\nname=\"second\"\n\n".toList =
      initFromString goRegexp (Store.initial goRegexp) "b.*\nname=\"second\"\n\n".toList :=
  ⟨rfl, rfl,
    (initFromString_replaces goRegexp (Store.initial goRegexp)
      (exampleLoad "a.*\nname=\"first\"\n\n") (Store.initial goRegexp)
      "b.*\nname=\"second\"\n\n".toList [] rfl).2.1⟩

/-- C12. Count invariant: after every successful `initFromString` the reported count
is the number of rules of the active list, and in every reachable store (any sequence
of successful and failed loads from the initial store with no rule and count 0; look-ups
do not change the store) the reported count is the length of the rule list. -/
theorem mappingsCount_eq_length (E : RegexpLib) (s : Store E) (hs : Store.Reachable E s) :
    s.mappingsCount = s.m.mappings.length ∧
    ∀ (t : Store E) (c : Str), (initFromString E t c).2 = none →
      (initFromString E t c).1.mappingsCount = (initFromString E t c).1.m.mappings.length := by
  have hsucc : ∀ (t : Store E) (c : Str), (initFromString E t c).2 = none →
      (initFromString E t c).1.mappingsCount =
        (initFromString E t c).1.m.mappings.length := by
    intro t c hc
    obtain ⟨st, _, heq⟩ := initFromString_ok E t c hc
    rw [heq]
  refine ⟨?_, hsucc⟩
  induction hs with
  | initial => rfl
  | load t c _ ih =>
    cases herr : (initFromString E t c).2 with
    | none => exact hsucc t c herr
    | some e =>
      rw [(initFromString_fail_closed_aux E t c e herr)]
      exact ih

/-- C12, after a successful load followed by a failed one. -/
theorem mappingsCount_eq_length_witness :
    Store.Reachable goRegexp
      (initFromString goRegexp (exampleLoad "a.*\nname=\"first\"\n\n") "(".toList).1 ∧
    (initFromString goRegexp (exampleLoad "a.*\nname=\"first\"\n\n") "(".toList).1.mappingsCount =
      1 ∧
    (initFromString goRegexp (exampleLoad "a.*\nname=\"first\"\n\n")
      "(".toList).1.m.mappings.length = 1 :=
  ⟨.load _ _ (.load _ _ .initial),
    (mappingsCount_eq_length goRegexp _ (.load _ "(".toList (.load _ _ .initial))).1.trans rfl,
    rfl⟩

/-! ## Claims on the parser states -/

/-- An error of the loop body on a line reached without error is the error returned by
`initFromString`, which leaves the store as it was. -/
theorem initFromString_abort_at (E : RegexpLib) (s : Store E) (fileContents : Str)
    (before : List Str) (l : Str) (after : List Str) (st : LoopState E) (e : LoadError)
    (hsplit : Split fileContents = before ++ l :: after)
    (hbefore : runLoop E (Split fileContents).length before 0 (LoopState.start E) = .ok st)
    (hbody : loopBody E (Split fileContents).length before.length l st = .error e) :
    initFromString E s fileContents = (s, some e) := by
  have hp : parseConfig E fileContents = .error e := by
    unfold parseConfig
    simp only []
    have h1 : runLoop E (Split fileContents).length (before ++ l :: after) 0
        (LoopState.start E) = .error e := by
      rw [runLoop_append]
      simp only [hbefore, runLoop, Nat.zero_add, hbody]
    rw [← hsplit] at h1
    exact h1
  simp only [initFromString, hp]

/-- C13. Missing terminating blank line: when the lines before the final line are read
without error and leave the loop in state METRIC_DEFINITION, and the final line is not
blank after trimming, `initFromString` fails with the error `missing terminating
newline`, whatever the final line is (a well-formed label line, a malformed one, a
`name` line with an invalid metric name). -/
theorem missing_terminating_blank_line (E : RegexpLib) (s : Store E) (fileContents : Str)
    (before : List Str) (last : Str) (st : LoopState E)
    (hsplit : Split fileContents = before ++ [last])
    (hbefore : runLoop E (Split fileContents).length before 0 (LoopState.start E) = .ok st)
    (hst : st.state = .METRIC_DEFINITION) (hlast : TrimSpace last ≠ []) :
    initFromString E s fileContents =
      (s, some (.MissingTerminatingBlankLine before.length)) := by
  apply initFromString_abort_at E s fileContents before last [] st _ hsplit hbefore
  have hlen : before.length + 1 = (Split fileContents).length := by
    rw [hsplit]
    simp
  simp only [loopBody, hst]
  rw [if_pos ⟨hlen, hlast⟩]

/-- C13, on three texts that differ in their final line: a well-formed label line, a
malformed label line, and a `name` line with an invalid metric name. -/
theorem missing_terminating_blank_line_witness :
    (initFromString goRegexp (Store.initial goRegexp) "a.*\nname=\"first\"\nzone=\"x\"".toList).2 =
      some (.MissingTerminatingBlankLine 2) ∧
    (initFromString goRegexp (Store.initial goRegexp) "a.*\nname=\"first\"\nzone x".toList).2 =
      some (.MissingTerminatingBlankLine 2) ∧
    (initFromString goRegexp (Store.initial goRegexp) "a.*\nzone=\"x\"\nname=\"a.b\"".toList).2 =
      some (.MissingTerminatingBlankLine 2) :=
  ⟨congrArg Prod.snd (missing_terminating_blank_line goRegexp (Store.initial goRegexp)
      "a.*\nname=\"first\"\nzone=\"x\"".toList ["a.*".toList, "name=\"first\"".toList]
      "zone=\"x\"".toList
      ⟨.METRIC_DEFINITION, [], exampleRule "a.*" [("name", "first")] false⟩
      rfl rfl rfl (by decide)),
    congrArg Prod.snd (missing_terminating_blank_line goRegexp (Store.initial goRegexp)
      "a.*\nname=\"first\"\nzone x".toList ["a.*".toList, "name=\"first\"".toList]
      "zone x".toList
      ⟨.METRIC_DEFINITION, [], exampleRule "a.*" [("name", "first")] false⟩
      rfl rfl rfl (by decide)),
    congrArg Prod.snd (missing_terminating_blank_line goRegexp (Store.initial goRegexp)
      "a.*\nzone=\"x\"\nname=\"a.b\"".toList ["a.*".toList, "zone=\"x\"".toList]
      "name=\"a.b\"".toList
      ⟨.METRIC_DEFINITION, [], exampleRule "a.*" [("zone", "x")] false⟩
      rfl rfl rfl (by decide))⟩

theorem Labels.get_eq_none_iff (l : Labels) (k : Str) : l.get k = none ↔ k ∉ l.keys := by
  induction l with
  | nil => simp [Labels.get, Labels.keys]
  | cons hd tl ih =>
    obtain ⟨k', v'⟩ := hd
    by_cases hk : k' = k
    · simp [Labels.get, Labels.keys, hk]
    · have hk' : ¬ k = k' := fun hh => hk hh.symm
      simp only [Labels.get, if_neg hk, ih]
      simp [Labels.keys, hk']

/-- C14. Closing a block: on a blank line read in state METRIC_DEFINITION for a rule
in progress that is not ignore-only, the loop body fails with `didn't set any labels`
exactly when the rule has no label template, fails with `didn't set a metric name`
exactly when it has a label template but none under the key `name`, and otherwise
appends the rule to the parsed rules, starts a fresh rule in progress and moves to
SEARCHING.  A failure of the loop body on a line reached without error is the failure of
`initFromString`. -/
theorem closing_a_block (E : RegexpLib) (n i : Nat) (l : Str) (st : LoopState E)
    (hst : st.state = .METRIC_DEFINITION) (hl : TrimSpace l = [])
    (hign : st.currentMapping.ignore = false) :
    (loopBody E n i l st = .error (.IncompleteRuleNoLabels i) ↔
      st.currentMapping.labels = []) ∧
    (loopBody E n i l st = .error (.IncompleteRuleNoName i) ↔
      st.currentMapping.labels ≠ [] ∧ "name".toList ∉ st.currentMapping.labels.keys) ∧
    (st.currentMapping.labels ≠ [] → "name".toList ∈ st.currentMapping.labels.keys →
      loopBody E n i l st =
        .ok ⟨.SEARCHING, st.parsedMappings ++ [st.currentMapping], freshMapping E⟩) ∧
    (∀ (s : Store E) (fileContents : Str) (before after : List Str) (e : LoadError),
      Split fileContents = before ++ l :: after → (Split fileContents).length = n →
      before.length = i → runLoop E n before 0 (LoopState.start E) = .ok st →
      loopBody E n i l st = .error e → initFromString E s fileContents = (s, some e)) := by
  have hlen : st.currentMapping.labels.length = 0 ↔ st.currentMapping.labels = [] :=
    List.length_eq_zero
  have hget : st.currentMapping.labels.get "name".toList = none ↔
      "name".toList ∉ st.currentMapping.labels.keys := Labels.get_eq_none_iff _ _
  have hbody : loopBody E n i l st =
      if st.currentMapping.labels = [] then .error (.IncompleteRuleNoLabels i)
      else if "name".toList ∉ st.currentMapping.labels.keys then
        .error (.IncompleteRuleNoName i)
      else .ok ⟨.SEARCHING, st.parsedMappings ++ [st.currentMapping], freshMapping E⟩ := by
    simp only [loopBody, hst, hl, hign, ne_eq, not_true_eq_false, and_false, if_false, if_true,
      true_and, hlen, hget]
  refine ⟨?_, ?_, ?_, ?_⟩
  · rw [hbody]
    by_cases h1 : st.currentMapping.labels = []
    · rw [if_pos h1]
      exact ⟨fun _ => h1, fun _ => rfl⟩
    · by_cases h2 : "name".toList ∉ st.currentMapping.labels.keys
      · rw [if_neg h1, if_pos h2]
        exact ⟨fun h => (by cases h), fun h => absurd h h1⟩
      · rw [if_neg h1, if_neg h2]
        exact ⟨fun h => (by cases h), fun h => absurd h h1⟩
  · rw [hbody]
    by_cases h1 : st.currentMapping.labels = []
    · rw [if_pos h1]
      exact ⟨fun h => (by cases h), fun h => absurd h1 h.1⟩
    · by_cases h2 : "name".toList ∉ st.currentMapping.labels.keys
      · rw [if_neg h1, if_pos h2]
        exact ⟨fun _ => ⟨h1, h2⟩, fun _ => rfl⟩
      · rw [if_neg h1, if_neg h2]
        exact ⟨fun h => (by cases h), fun h => absurd h.2 h2⟩
  · intro h1 h2
    rw [hbody, if_neg h1, if_neg (not_not.mpr h2)]
  · intro s fileContents before after e hsplit hn hi hbefore herr
    subst hn
    subst hi
    exact initFromString_abort_at E s fileContents before l after st e hsplit hbefore herr

/-- C14, on a rule in progress that has a label but no `name`: the blank line fails
with `didn't set a metric name`, and so does the load of such a text. -/
theorem closing_a_block_witness :
    loopBody goRegexp 4 2 [] ⟨.METRIC_DEFINITION, [], exampleRule "a.*" [("zone", "x")] false⟩ =
      .error (.IncompleteRuleNoName 2) ∧
    initFromString goRegexp (Store.initial goRegexp) "a.*\nzone=\"x\"\n\n".toList =
      (Store.initial goRegexp, some (.IncompleteRuleNoName 2)) ∧
    loopBody goRegexp 4 2 []
        ⟨.METRIC_DEFINITION, [], exampleRule "a.*" [("name", "first")] false⟩ =
      .ok ⟨.SEARCHING, [exampleRule "a.*" [("name", "first")] false], freshMapping goRegexp⟩ ∧
    loopBody goRegexp 3 1 [] ⟨.METRIC_DEFINITION, [], exampleRule "a.*" [] false⟩ =
      .error (.IncompleteRuleNoLabels 1) :=
  ⟨(closing_a_block goRegexp 4 2 []
      ⟨.METRIC_DEFINITION, [], exampleRule "a.*" [("zone", "x")] false⟩ rfl rfl rfl).2.1.mpr
      ⟨by decide, by decide⟩,
    (closing_a_block goRegexp 4 2 []
      ⟨.METRIC_DEFINITION, [], exampleRule "a.*" [("zone", "x")] false⟩ rfl rfl rfl).2.2.2
      (Store.initial goRegexp) "a.*\nzone=\"x\"\n\n".toList
      ["a.*".toList, "zone=\"x\"".toList] [[]] (.IncompleteRuleNoName 2) rfl rfl rfl rfl rfl,
    (closing_a_block goRegexp 4 2 []
      ⟨.METRIC_DEFINITION, [], exampleRule "a.*" [("name", "first")] false⟩ rfl rfl rfl).2.2.1
      (by decide) (by decide),
    (closing_a_block goRegexp 3 1 []
      ⟨.METRIC_DEFINITION, [], exampleRule "a.*" [] false⟩ rfl rfl rfl).1.mpr rfl⟩

/-! ## Claims on label lines -/

/-- The two renderings of `updateMapping` agree. -/
theorem updateMappingInPlace_eq {E : RegexpLib} (line : Str) (i : Nat)
    (mapping : metricMapping E) :
    updateMappingInPlace line i mapping =
      match updateMapping line i mapping with
      | .error e => (mapping, some e)
      | .ok cur => (cur, none) := by
  unfold updateMappingInPlace updateMapping
  split
  · split
    · rfl
    · split <;> rfl
  · rfl

theorem isIdentStart_isIdentChar (c : Char) (h : isIdentStart c = true) :
    isIdentChar c = true := by
  simp only [isIdentStart, isIdentChar, Bool.or_eq_true, Bool.and_eq_true, decide_eq_true_eq,
    beq_iff_eq] at h ⊢
  omega

theorem IsIdentifier.all_identChar {v : Str} (h : IsIdentifier v) :
    ∀ c ∈ v, isIdentChar c = true := by
  obtain ⟨c, rest, rfl, hc, _, hall⟩ := h
  intro x hx
  rcases List.mem_cons.mp hx with rfl | hx'
  · exact isIdentStart_isIdentChar _ hc
  · exact hall x hx'

theorem IsIdentifier.length {v : Str} (h : IsIdentifier v) : 2 ≤ v.length := by
  obtain ⟨c, rest, rfl, _, hne, _⟩ := h
  cases rest with
  | nil => exact absurd rfl hne
  | cons d rest => simp

/-- C15. Metric-name validation: on a label line whose identifier is `name`,
`updateMapping` returns the error `metric name doesn't match` exactly when the quoted
value does not have identifier syntax `[a-zA-Z_][a-zA-Z0-9_]+` over its whole length; so
an empty value, a value of one character and a value containing a dot or a dollar sign
are rejected.  The mapping passed in is arbitrary, so the check is made in an
ignore-only block as well; on rejection the mapping is left as it was, and otherwise the
value is stored under `name`. -/
theorem name_value_validation (E : RegexpLib) (line whole value : Str) (i : Nat)
    (mapping : metricMapping E)
    (hline : labelLineRE_FindStringSubmatch line = [whole, "name".toList, value]) :
    ((updateMappingInPlace line i mapping).2 = some (.InvalidMetricName i value) ↔
      ¬ IsIdentifier value) ∧
    (¬ IsIdentifier value →
      updateMappingInPlace line i mapping = (mapping, some (.InvalidMetricName i value)) ∧
      updateMapping line i mapping = .error (.InvalidMetricName i value)) ∧
    (IsIdentifier value →
      updateMappingInPlace line i mapping =
        ({ mapping with labels := mapping.labels.set "name".toList value }, none)) ∧
    (value.length ≤ 1 → ¬ IsIdentifier value) ∧
    ('.' ∈ value → ¬ IsIdentifier value) ∧ ('$' ∈ value → ¬ IsIdentifier value) := by
  have hbad : ¬ IsIdentifier value →
      updateMappingInPlace line i mapping = (mapping, some (.InvalidMetricName i value)) ∧
      updateMapping line i mapping = .error (.InvalidMetricName i value) := by
    intro hv
    have hm : ¬ metricNameRE_MatchString value = true :=
      fun hh => hv ((metricNameRE_MatchString_iff value).mp hh)
    constructor
    · simp only [updateMappingInPlace, hline]
      rw [if_pos ⟨trivial, hm⟩]
    · simp only [updateMapping, hline]
      rw [if_pos ⟨trivial, hm⟩]
  have hgood : IsIdentifier value →
      updateMappingInPlace line i mapping =
        ({ mapping with labels := mapping.labels.set "name".toList value }, none) := by
    intro hv
    have hm : metricNameRE_MatchString value = true := (metricNameRE_MatchString_iff value).mpr hv
    simp only [updateMappingInPlace, hline]
    rw [if_neg (fun hh => hh.2 hm), if_neg (fun hh => absurd hh.1 (by decide))]
  refine ⟨⟨?_, fun hv => by rw [(hbad hv).1]⟩, hbad, hgood, ?_, ?_, ?_⟩
  · intro herr hv
    rw [hgood hv] at herr
    cases herr
  · intro hlen hv
    have := hv.length
    omega
  · intro hmem hv
    exact absurd (hv.all_identChar _ hmem) (by decide)
  · intro hmem hv
    exact absurd (hv.all_identChar _ hmem) (by decide)

/-- C15, on the line `name="a.b"` in a block that is already ignore-only. -/
theorem name_value_validation_witness :
    labelLineRE_FindStringSubmatch "name=\"a.b\"".toList =
      ["name=\"a.b\"".toList, "name".toList, "a.b".toList] ∧
    ¬ IsIdentifier "a.b".toList ∧
    updateMappingInPlace "name=\"a.b\"".toList 3 (exampleRule "a.*" [("zone", "x")] true) =
      (exampleRule "a.*" [("zone", "x")] true, some (.InvalidMetricName 3 "a.b".toList)) :=
  ⟨rfl,
    (name_value_validation goRegexp "name=\"a.b\"".toList "name=\"a.b\"".toList "a.b".toList 3
      (exampleRule "a.*" [("zone", "x")] true) rfl).2.2.2.2.1 (by decide),
    ((name_value_validation goRegexp "name=\"a.b\"".toList "name=\"a.b\"".toList "a.b".toList 3
      (exampleRule "a.*" [("zone", "x")] true) rfl).2.1
      ((name_value_validation goRegexp "name=\"a.b\"".toList "name=\"a.b\"".toList
        "a.b".toList 3 (exampleRule "a.*" [("zone", "x")] true) rfl).2.2.2.2.1 (by decide))).1⟩

theorem isReSpace_not_identChar (c : Char) (h : isReSpace c = true) :
    ¬ isIdentChar c = true := by
  simp only [isReSpace, isIdentChar, Bool.or_eq_true, Bool.and_eq_true, decide_eq_true_eq,
    beq_iff_eq] at h ⊢
  omega

/-- The result of `labelLineRE` is `nil` or the line with its two groups, and then the
line has the form of a label line. -/
theorem labelLineRE_cases (line : Str) :
    labelLineRE_FindStringSubmatch line = [] ∨
    ∃ ident value, labelLineRE_FindStringSubmatch line = [line, ident, value] ∧
      LabelLineForm line ident value := by
  have h0 := List.takeWhile_append_dropWhile isIdentChar line
  have hall : ∀ x ∈ line.takeWhile isIdentChar, isIdentChar x = true :=
    fun x hx => List.mem_takeWhile_imp hx
  rcases hI : line.takeWhile isIdentChar with _ | ⟨c, _ | ⟨d, t⟩⟩
  · left
    simp only [labelLineRE_FindStringSubmatch, hI]
  · left
    simp only [labelLineRE_FindStringSubmatch, hI]
  · by_cases hc : isIdentStart c = true
    · have h1 := List.takeWhile_append_dropWhile isReSpace (line.dropWhile isIdentChar)
      have hws1 : ∀ x ∈ (line.dropWhile isIdentChar).takeWhile isReSpace, isReSpace x = true :=
        fun x hx => List.mem_takeWhile_imp hx
      rcases hR : (line.dropWhile isIdentChar).dropWhile isReSpace with _ | ⟨e, r1⟩
      · left
        simp only [labelLineRE_FindStringSubmatch, hI, hc, hR, if_true]
      · by_cases he : e = '='
        · have h2 := List.takeWhile_append_dropWhile isReSpace r1
          have hws2 : ∀ x ∈ r1.takeWhile isReSpace, isReSpace x = true :=
            fun x hx => List.mem_takeWhile_imp hx
          rcases hQ : r1.dropWhile isReSpace with _ | ⟨q, r2⟩
          · left
            simp only [labelLineRE_FindStringSubmatch, hI, hc, hR, he, hQ, if_true]
          · by_cases hcond : q = dquote ∧ r2.getLast? = some dquote ∧
                r2.dropLast.all (fun x => x != '\n') = true
            · right
              refine ⟨c :: d :: t, r2.dropLast, ?_, ?_⟩
              · simp only [labelLineRE_FindStringSubmatch, hI, hc, hR, he, hQ, if_true]
                rw [if_pos hcond]
              · refine ⟨(line.dropWhile isIdentChar).takeWhile isReSpace,
                  r1.takeWhile isReSpace, ?_, hws1, hws2, ?_⟩
                · refine ⟨c, d :: t, rfl, hc, List.cons_ne_nil _ _, ?_⟩
                  intro x hx
                  apply hall
                  rw [hI]
                  exact List.mem_cons_of_mem _ hx
                · have h3 : r2.dropLast ++ [dquote] = r2 :=
                    List.dropLast_append_getLast? dquote (by rw [hcond.2.1]; rfl)
                  rw [h3, ← hcond.1, ← hQ, h2, ← he, ← hR, h1, ← hI, h0]
            · left
              simp only [labelLineRE_FindStringSubmatch, hI, hc, hR, he, hQ, if_true]
              rw [if_neg hcond]
        · left
          simp only [labelLineRE_FindStringSubmatch, hI, hc, hR, if_true]
          rw [if_neg he]
    · left
      simp only [labelLineRE_FindStringSubmatch, hI]
      rw [if_neg hc]

/-- A line of the form of a label line is read by `labelLineRE` as its identifier
and its value. -/
theorem labelLineRE_of_form (line ident value : Str) (hnl : '\n' ∉ line)
    (hform : LabelLineForm line ident value) :
    labelLineRE_FindStringSubmatch line = [line, ident, value] := by
  obtain ⟨ws1, ws2, hid, hws1, hws2, hline⟩ := hform
  have hidall := hid.all_identChar
  obtain ⟨c, rest, hident, hc, hne, _⟩ := hid
  obtain ⟨d, t, hrest⟩ : ∃ d t, rest = d :: t := by
    cases rest with
    | nil => exact absurd rfl hne
    | cons d t => exact ⟨d, t, rfl⟩
  have heqc : ¬ isIdentChar '=' = true := by decide
  have heqs : ¬ isReSpace '=' = true := by decide
  have hqs : ¬ isReSpace dquote = true := by decide
  have hX : ∀ tl : Str, List.takeWhile isIdentChar (ws1 ++ ('=' :: tl)) = [] ∧
      List.dropWhile isIdentChar (ws1 ++ ('=' :: tl)) = ws1 ++ ('=' :: tl) := by
    intro tl
    cases ws1 with
    | nil => exact ⟨List.takeWhile_cons_of_neg heqc, List.dropWhile_cons_of_neg heqc⟩
    | cons w ws =>
      have hw : ¬ isIdentChar w = true :=
        isReSpace_not_identChar w (hws1 w (List.mem_cons_self _ _))
      exact ⟨List.takeWhile_cons_of_neg hw, List.dropWhile_cons_of_neg hw⟩
  have hT : line.takeWhile isIdentChar = ident := by
    rw [hline, List.takeWhile_append_of_pos hidall, (hX _).1, List.append_nil]
  have hD : line.dropWhile isIdentChar =
      ws1 ++ ('=' :: (ws2 ++ (dquote :: (value ++ [dquote])))) := by
    rw [hline, List.dropWhile_append_of_pos hidall, (hX _).2]
  have hR : (line.dropWhile isIdentChar).dropWhile isReSpace =
      '=' :: (ws2 ++ (dquote :: (value ++ [dquote]))) := by
    rw [hD, List.dropWhile_append_of_pos hws1, List.dropWhile_cons_of_neg heqs]
  have hQ : (ws2 ++ (dquote :: (value ++ [dquote]))).dropWhile isReSpace =
      dquote :: (value ++ [dquote]) := by
    rw [List.dropWhile_append_of_pos hws2, List.dropWhile_cons_of_neg hqs]
  have hval : value.all (fun x => x != '\n') = true := by
    rw [List.all_eq_true]
    intro x hx
    have hxl : x ∈ line := by
      rw [hline]
      simp [hx]
    have : x ≠ '\n' := fun hh => hnl (hh ▸ hxl)
    simpa using this
  have hcond : True ∧ (value ++ [dquote]).getLast? = some dquote ∧
      (value ++ [dquote]).dropLast.all (fun x => x != '\n') = true :=
    ⟨trivial, List.getLast?_concat value, by rw [List.dropLast_concat]; exact hval⟩
  have hI : line.takeWhile isIdentChar = c :: d :: t := by rw [hT, hident, hrest]
  simp only [labelLineRE_FindStringSubmatch, hI, hc, hR, hQ, if_true]
  rw [if_pos hcond, List.dropLast_concat, hident, hrest]

theorem Labels.get_set (l : Labels) (k v : Str) : (l.set k v).get k = some v := by
  induction l with
  | nil => simp [Labels.set, Labels.get]
  | cons hd tl ih =>
    obtain ⟨k', v'⟩ := hd
    by_cases hk : k' = k
    · simp [Labels.set, Labels.get, hk]
    · simp only [Labels.set, if_neg hk, Labels.get]
      exact ih

theorem Split_no_newline (s : Str) : ∀ l ∈ Split s, '\n' ∉ l := by
  induction s with
  | nil =>
    intro l hl
    simp only [Split, List.mem_singleton] at hl
    rw [hl]
    exact List.not_mem_nil _
  | cons c cs ih =>
    intro l hl
    by_cases hc : c = '\n'
    · simp only [Split, if_pos hc, List.mem_cons] at hl
      rcases hl with rfl | hl
      · exact List.not_mem_nil _
      · exact ih l hl
    · simp only [Split, if_neg hc] at hl
      cases hs : Split cs with
      | nil =>
        rw [hs] at hl
        simp only [List.mem_singleton] at hl
        rw [hl]
        simp only [List.mem_singleton]
        exact fun hh => hc hh.symm
      | cons hd tl =>
        rw [hs] at hl ih
        simp only [List.mem_cons] at hl
        rcases hl with rfl | hl
        · intro hmem
          rcases List.mem_cons.mp hmem with hh | hh
          · exact hc hh.symm
          · exact ih hd (List.mem_cons_self _ _) hh
        · exact ih l (List.mem_cons_of_mem _ hl)

theorem TrimSpace_subset (l : Str) : ∀ x ∈ TrimSpace l, x ∈ l := by
  intro x hx
  unfold TrimSpace at hx
  rw [List.mem_reverse] at hx
  have h1 := (List.dropWhile_sublist isSpace).subset hx
  rw [List.mem_reverse] at h1
  exact (List.dropWhile_sublist isSpace).subset h1

/-- C16. Label-line grammar: on a line without newline (as are all lines of a text,
trimmed or not), `updateMapping` returns the error `expected label mapping line`
exactly when the line is not an identifier `[a-zA-Z_][a-zA-Z0-9_]+`, optional white
space, `=`, optional white space, a quotation mark, any characters, and a quotation
mark that ends the line.  When the line has that form, the identifier and the value
are determined by the line, the value being the text between the first quotation mark
after `=` and the final one, and they are what `labelLineRE` reads; unless the line is
`name` with a bad value or `ignore` with the value `true`, the pair is stored in the rule
in progress. -/
theorem label_line_grammar (E : RegexpLib) (line : Str) (i : Nat) (mapping : metricMapping E)
    (hnl : '\n' ∉ line) :
    (updateMapping line i mapping = .error (.MalformedLabelLine i line) ↔
      ¬ ∃ ident value, LabelLineForm line ident value) ∧
    (∀ ident value, LabelLineForm line ident value →
      labelLineRE_FindStringSubmatch line = [line, ident, value] ∧
      (∀ ident' value', LabelLineForm line ident' value' → ident' = ident ∧ value' = value) ∧
      (¬ (ident = "name".toList ∧ ¬ IsIdentifier value) →
        ¬ (ident = "ignore".toList ∧ value = "true".toList) →
        updateMapping line i mapping =
          .ok { mapping with labels := mapping.labels.set ident value } ∧
        (mapping.labels.set ident value).get ident = some value)) ∧
    (∀ fileContents : Str, ∀ l ∈ Split fileContents, '\n' ∉ TrimSpace l) := by
  refine ⟨?_, ?_, ?_⟩
  · constructor
    · rintro herr ⟨ident, value, hform⟩
      have hm := labelLineRE_of_form line ident value hnl hform
      simp only [updateMapping, hm] at herr
      split at herr
      · cases herr
      · split at herr <;> cases herr
    · intro hno
      rcases labelLineRE_cases line with hnil | ⟨ident, value, _, hform⟩
      · simp only [updateMapping, hnil]
      · exact absurd ⟨ident, value, hform⟩ hno
  · intro ident value hform
    have hm := labelLineRE_of_form line ident value hnl hform
    refine ⟨hm, ?_, ?_⟩
    · intro ident' value' hform'
      have hm' := labelLineRE_of_form line ident' value' hnl hform'
      rw [hm] at hm'
      simp only [List.cons.injEq, and_true, true_and] at hm'
      exact ⟨hm'.1.symm, hm'.2.symm⟩
    · intro hname hign
      have hname' : ¬ (ident = "name".toList ∧ ¬ metricNameRE_MatchString value = true) := by
        rintro ⟨h1, h2⟩
        exact hname ⟨h1, fun hv => h2 ((metricNameRE_MatchString_iff value).mpr hv)⟩
      refine ⟨?_, Labels.get_set _ _ _⟩
      simp only [updateMapping, hm]
      rw [if_neg hname', if_neg hign]
  · intro fileContents l hl hmem
    exact Split_no_newline fileContents l hl (TrimSpace_subset l _ hmem)

/-- C16, on a line whose value contains a quotation mark, and on a line without the
final quotation mark. -/
theorem label_line_grammar_witness :
    '\n' ∉ "ab = \"x\"y\"".toList ∧
    LabelLineForm "ab = \"x\"y\"".toList "ab".toList "x\"y".toList ∧
    labelLineRE_FindStringSubmatch "ab = \"x\"y\"".toList =
      ["ab = \"x\"y\"".toList, "ab".toList, "x\"y".toList] ∧
    updateMapping "ab = \"x\"y\"".toList 1 (exampleRule "a.*" [("name", "first")] false) =
      .ok (exampleRule "a.*" [("name", "first"), ("ab", "x\"y")] false) ∧
    ¬ ∃ ident value, LabelLineForm "ab = \"x".toList ident value := by
  have hform : LabelLineForm "ab = \"x\"y\"".toList "ab".toList "x\"y".toList :=
    ⟨[' '], [' '], ⟨'a', ['b'], rfl, by decide, by decide, by decide⟩, by decide, by decide, rfl⟩
  have h := label_line_grammar goRegexp "ab = \"x\"y\"".toList 1
    (exampleRule "a.*" [("name", "first")] false) (by decide)
  have h' := label_line_grammar goRegexp "ab = \"x".toList 1
    (exampleRule "a.*" [("name", "first")] false) (by decide)
  exact ⟨by decide, hform, (h.2.1 _ _ hform).1,
    ((h.2.1 _ _ hform).2.2 (fun hh => absurd hh.1 (by decide)) (by decide)).1, h'.1.mp rfl⟩

/-! ## The labels of ignore-only rules -/

theorem loopBody_freshOutside (E : RegexpLib) (n i : Nat) (l : Str) (st st' : LoopState E)
    (hinv : st.FreshOutside) (h : loopBody E n i l st = .ok st') : st'.FreshOutside := by
  rcases loopBody_ok_cases E n i l st st' h with
    ⟨_, _, rfl⟩ | ⟨_, _, re, _, rfl⟩ | ⟨_, _, _, _, rfl⟩ | ⟨hs, _, _, cur, _, rfl⟩
  · exact hinv
  · intro hh
    cases hh
  · intro _
    rfl
  · intro hh
    rw [hs] at hh
    cases hh

theorem runLoop_freshOutside (E : RegexpLib) (n : Nat) (ls : List Str) (st : LoopState E)
    (h : runLoop E n ls 0 (LoopState.start E) = .ok st) : st.FreshOutside :=
  runLoop_invariant E n LoopState.FreshOutside
    (fun i l a b => loopBody_freshOutside E n i l a b) ls 0 _ st (fun _ => rfl) h

theorem blockLabels_no_ignore_true (body : List Str) (acc : Labels)
    (hacc : ("ignore".toList, "true".toList) ∉ acc) :
    ("ignore".toList, "true".toList) ∉ blockLabels body acc := by
  induction body generalizing acc with
  | nil => exact hacc
  | cons l ls ih =>
    simp only [blockLabels]
    split
    · rename_i whole label value _
      by_cases hc : label = "ignore".toList ∧ value = "true".toList
      · rw [if_pos hc]
        exact ih acc hacc
      · rw [if_neg hc]
        apply ih
        intro hmem
        rcases Labels.mem_set _ _ _ _ hmem with heq | hold
        · simp only [Prod.mk.injEq] at heq
          exact hc ⟨heq.1.symm, heq.2.symm⟩
        · exact hacc hold
    · exact ih acc hacc

theorem blockLabels_all_ignore (body : List Str) (acc : Labels)
    (hall : ∀ l ∈ body, IsIgnoreLine l) : blockLabels body acc = acc := by
  induction body with
  | nil => rfl
  | cons l ls ih =>
    obtain ⟨whole, hw⟩ := hall l (List.mem_cons_self _ _)
    simp only [blockLabels, hw]
    rw [if_pos ⟨trivial, trivial⟩]
    exact ih (fun c hc => hall c (List.mem_cons_of_mem _ hc))

/-- C17 as stated fails.  The block with the lines `zone="$1"`, `ignore = "true"` and
`name="first"` loads and publishes an ignore-only rule whose label map holds `zone` and
`name`; the block with the lines `ignore="yes"` and `ignore = "true"` publishes an
ignore-only rule whose label map holds the key `ignore`. -/
theorem ignore_rule_keeps_labels :
    initFromString goRegexp (Store.initial goRegexp) exampleIgnoreConfig =
      (⟨⟨[exampleRule "a.*" [("zone", "$1"), ("name", "first")] true]⟩, 1⟩, none) ∧
    (∃ r ∈ (initFromString goRegexp (Store.initial goRegexp) exampleIgnoreConfig).1.m.mappings,
      r.ignore = true ∧ r.labels ≠ [] ∧ "name".toList ∈ r.labels.keys) ∧
    initFromString goRegexp (Store.initial goRegexp)
        "a.*\nignore=\"yes\"\nignore = \"true\"\n\n".toList =
      (⟨⟨[exampleRule "a.*" [("ignore", "yes")] true]⟩, 1⟩, none) ∧
    (∃ r ∈ (initFromString goRegexp (Store.initial goRegexp)
        "a.*\nignore=\"yes\"\nignore = \"true\"\n\n".toList).1.m.mappings,
      r.ignore = true ∧ "ignore".toList ∈ r.labels.keys) :=
  ⟨rfl,
    ⟨exampleRule "a.*" [("zone", "$1"), ("name", "first")] true, List.mem_singleton.mpr rfl,
      rfl, by decide, by decide⟩,
    rfl,
    ⟨exampleRule "a.*" [("ignore", "yes")] true, List.mem_singleton.mpr rfl, rfl, by decide⟩⟩

theorem blockLabels_append (a b : List Str) (acc : Labels) :
    blockLabels (a ++ b) acc = blockLabels b (blockLabels a acc) := by
  induction a generalizing acc with
  | nil => rfl
  | cons l ls ih =>
    simp only [List.cons_append, blockLabels]
    split
    · split
      · exact ih acc
      · exact ih _
    · exact ih acc

theorem Labels.set_ne_nil (l : Labels) (k v : Str) : l.set k v ≠ [] := by
  cases l with
  | nil => simp [Labels.set]
  | cons hd tl =>
    obtain ⟨k', v'⟩ := hd
    simp only [Labels.set]
    split <;> simp

theorem blockLabels_eq_nil (body : List Str) (acc : Labels)
    (hreads : ∀ l ∈ body, ∃ whole label value,
      labelLineRE_FindStringSubmatch (TrimSpace l) = [whole, label, value])
    (h : blockLabels body acc = []) : acc = [] ∧ ∀ l ∈ body, IsIgnoreLine l := by
  induction body generalizing acc with
  | nil => exact ⟨h, fun l hl => (nomatch hl)⟩
  | cons l ls ih =>
    obtain ⟨whole, label, value, hm⟩ := hreads l (List.mem_cons_self _ _)
    have hrest := fun c hc => hreads c (List.mem_cons_of_mem l hc)
    simp only [blockLabels, hm] at h
    by_cases hc : label = "ignore".toList ∧ value = "true".toList
    · rw [if_pos hc] at h
      obtain ⟨h1, h2⟩ := ih acc hrest h
      refine ⟨h1, ?_⟩
      intro c hc'
      rcases List.mem_cons.mp hc' with rfl | hc''
      · exact ⟨whole, by rw [hm, hc.1, hc.2]⟩
      · exact h2 c hc''
    · rw [if_neg hc] at h
      exact absurd (ih _ hrest h).1 (Labels.set_ne_nil _ _ _)

theorem IsRuleOfBlock.snoc {E : RegexpLib} (mapping cur : metricMapping E) (pre : List Str)
    (l : Str) (i : Nat) (h : IsRuleOfBlock mapping pre)
    (hu : updateMapping (TrimSpace l) i mapping = .ok cur) :
    IsRuleOfBlock cur (pre ++ [l]) := by
  obtain ⟨hlab, hign, hreads⟩ := h
  obtain ⟨whole, label, value, hm, _, h3⟩ := updateMapping_ok_cases _ _ _ _ hu
  have hreads' : ∀ c ∈ pre ++ [l], ∃ whole label value,
      labelLineRE_FindStringSubmatch (TrimSpace c) = [whole, label, value] := by
    intro c hc
    rcases List.mem_append.mp hc with hc' | hc'
    · exact hreads c hc'
    · rw [List.mem_singleton] at hc'
      rw [hc']
      exact ⟨whole, label, value, hm⟩
  rcases h3 with ⟨hl1, hl2, hc⟩ | ⟨hnot, hc⟩
  · refine ⟨?_, ?_, hreads'⟩
    · rw [blockLabels_append, ← hlab, hc]
      simp only [blockLabels, hm]
      rw [if_pos ⟨hl1, hl2⟩]
    · rw [hc]
      exact ⟨fun _ => ⟨l, by simp, whole, by rw [hm, hl1, hl2]⟩, fun _ => rfl⟩
  · have hnign : ¬ IsIgnoreLine l := by
      rintro ⟨w, hw⟩
      rw [hw] at hm
      simp only [List.cons.injEq, and_true] at hm
      exact hnot ⟨hm.2.1.symm, hm.2.2.symm⟩
    refine ⟨?_, ?_, hreads'⟩
    · rw [blockLabels_append, ← hlab, hc]
      simp only [blockLabels, hm]
      rw [if_neg hnot]
    · rw [hc]
      show mapping.ignore = true ↔ _
      rw [hign]
      constructor
      · rintro ⟨c, hc', hci⟩
        exact ⟨c, List.mem_append_left _ hc', hci⟩
      · rintro ⟨c, hc', hci⟩
        rcases List.mem_append.mp hc' with hc'' | hc''
        · exact ⟨c, hc'', hci⟩
        · rw [List.mem_singleton] at hc''
          rw [hc''] at hci
          exact absurd hci hnign

/-- The rules the loop appends are the rules of the blocks it closes, in order. -/
theorem runLoop_blocks (E : RegexpLib) (n : Nat) (ls : List Str) :
    ∀ (i : Nat) (st st' : LoopState E) (o : Option (List Str)), st.AtBlock o →
      runLoop E n ls i st = .ok st' →
      ∃ new, st'.parsedMappings = st.parsedMappings ++ new ∧
        List.Forall₂ IsRuleOfBlock new (blockBodies ls o) := by
  induction ls with
  | nil =>
    intro i st st' o _ h
    simp only [runLoop, Except.ok.injEq] at h
    subst h
    refine ⟨[], by simp, ?_⟩
    cases o <;> exact List.Forall₂.nil
  | cons l ls ih =>
    intro i st st' o hat h
    simp only [runLoop] at h
    cases hb : loopBody E n i l st with
    | error e => rw [hb] at h; cases h
    | ok st1 =>
      simp only [hb] at h
      rcases loopBody_ok_cases E n i l st st1 hb with
        ⟨hs, hl, hst1⟩ | ⟨hs, hl, re, _, hst1⟩ | ⟨hs, hl, _, _, hst1⟩ | ⟨hs, hl, _, cur, hu, hst1⟩
      · cases o with
        | some body => rw [hat.1] at hs; cases hs
        | none =>
          subst hst1
          obtain ⟨new, h1, h2⟩ := ih (i + 1) st1 st' none hat h
          refine ⟨new, h1, ?_⟩
          simp only [blockBodies, if_pos hl]
          exact h2
      · cases o with
        | some body => rw [hat.1] at hs; cases hs
        | none =>
          have hat1 : st1.AtBlock (some []) := by
            rw [hst1]
            refine ⟨rfl, ?_, ?_, fun c hc => (nomatch hc)⟩
            · exact hat.2.1
            · show st.currentMapping.ignore = true ↔ _
              rw [hat.2.2]
              exact ⟨fun hh => (nomatch hh), fun ⟨c, hc, _⟩ => (nomatch hc)⟩
          obtain ⟨new, h1, h2⟩ := ih (i + 1) st1 st' (some []) hat1 h
          refine ⟨new, ?_, ?_⟩
          · rw [h1, hst1]
          · simp only [blockBodies, if_neg hl]
            exact h2
      · cases o with
        | none => rw [hat.1] at hs; cases hs
        | some body =>
          have hat1 : st1.AtBlock none := by
            rw [hst1]
            exact ⟨rfl, rfl, rfl⟩
          obtain ⟨new, h1, h2⟩ := ih (i + 1) st1 st' none hat1 h
          refine ⟨st.currentMapping :: new, ?_, ?_⟩
          · rw [h1, hst1]
            simp
          · simp only [blockBodies, if_pos hl]
            exact List.Forall₂.cons hat.2 h2
      · cases o with
        | none => rw [hat.1] at hs; cases hs
        | some body =>
          have hat1 : st1.AtBlock (some (body ++ [l])) := by
            rw [hst1]
            exact ⟨hs, IsRuleOfBlock.snoc _ cur body l i hat.2 hu⟩
          obtain ⟨new, h1, h2⟩ := ih (i + 1) st1 st' _ hat1 h
          refine ⟨new, ?_, ?_⟩
          · rw [h1, hst1]
          · simp only [blockBodies, if_neg hl]
            exact h2

theorem forall₂_exists_of_mem {α β : Type} (R : α → β → Prop) (xs : List α) (ys : List β)
    (h : List.Forall₂ R xs ys) : ∀ a ∈ xs, ∃ b ∈ ys, R a b := by
  induction h with
  | nil => intro a ha; cases ha
  | cons hr _ ih =>
    intro a ha
    rcases List.mem_cons.mp ha with rfl | ha'
    · exact ⟨_, List.mem_cons_self _ _, hr⟩
    · obtain ⟨b, hb, hab⟩ := ih a ha'
      exact ⟨b, List.mem_cons_of_mem _ hb, hab⟩

/-- C17, amended.  After every successful `initFromString` the published rules are, in
order, the rules of the closed blocks of the text.  Hence every published rule whose
ignore flag is true comes from a block with an `ignore = "true"` label line, and its
label map is exactly the one assigned by the other label lines of that block, before or
after the ignore line: the map is empty exactly when the block has no other label line,
and it never holds the pair `ignore`, `true`.  These labels are never returned: for a
metric name whose first matching rule has the ignore flag set, `getMapping` returns
`present = true` and no labels. -/
theorem ignore_rules_labels (E : RegexpLib) (s : Store E) (fileContents : Str)
    (hload : (initFromString E s fileContents).2 = none) :
    List.Forall₂ IsRuleOfBlock (initFromString E s fileContents).1.m.mappings
      (blockBodies (Split fileContents) none) ∧
    (∀ r ∈ (initFromString E s fileContents).1.m.mappings, r.ignore = true →
      ∃ body ∈ blockBodies (Split fileContents) none,
        (∃ l ∈ body, IsIgnoreLine l) ∧ r.labels = blockLabels body [] ∧
        (r.labels = [] ↔ ∀ l ∈ body, IsIgnoreLine l) ∧
        ("ignore".toList, "true".toList) ∉ r.labels) ∧
    (∀ (name : Str) (before after : List (metricMapping E)) (r : metricMapping E),
      (initFromString E s fileContents).1.m.mappings = before ++ r :: after →
      r.ignore = true → (∀ b ∈ before, ¬ b.matchesName name) → r.matchesName name →
      getMapping E (initFromString E s fileContents).1.m name = .returned (none, true)) := by
  obtain ⟨stF, hparse, heq⟩ := initFromString_ok E s fileContents hload
  have hrules : (initFromString E s fileContents).1.m.mappings = stF.parsedMappings := by
    rw [heq]
  obtain ⟨new, hnew, hall⟩ := runLoop_blocks E _ (Split fileContents) 0 (LoopState.start E) stF
    none ⟨rfl, rfl, rfl⟩ hparse
  have hnew' : stF.parsedMappings = new := by
    rw [hnew]
    rfl
  rw [← hnew', ← hrules] at hall
  refine ⟨hall, ?_, ?_⟩
  · intro r hr hign
    obtain ⟨body, hbody, hlab, hflag, hreads⟩ := forall₂_exists_of_mem _ _ _ hall r hr
    refine ⟨body, hbody, hflag.mp hign, hlab, ?_, ?_⟩
    · constructor
      · intro hnil
        rw [hlab] at hnil
        exact (blockLabels_eq_nil body [] hreads hnil).2
      · intro hallign
        rw [hlab]
        exact blockLabels_all_ignore body [] hallign
    · rw [hlab]
      exact blockLabels_no_ignore_true body [] (List.not_mem_nil _)
  · intro name before after r hsplit hign hno hmatch
    obtain ⟨re, hreg, hm⟩ := hmatch
    have hno' : ∀ b ∈ before, ∃ re', b.regex = some re' ∧
        E.FindStringSubmatchIndex re' name = [] := by
      intro b hb
      have hbmem : b ∈ stF.parsedMappings := by
        rw [← hrules, hsplit]
        exact List.mem_append_left _ hb
      cases hbr : b.regex with
      | none => exact absurd hbr (parseConfig_compiled E fileContents stF hparse b hbmem)
      | some re' =>
        refine ⟨re', rfl, ?_⟩
        by_contra hne
        exact hno b hb ⟨re', hbr, hne⟩
    unfold getMapping
    rw [hsplit, getMappingLoop_skip E name _ _ hno', getMappingLoop_hit E name r after re hreg hm,
      hign]
    rfl

/-- C17 amended, on a text with two ignore-only blocks: the first has other label lines
before and after the ignore line, the second has the ignore line alone. -/
theorem ignore_rules_labels_witness :
    (initFromString goRegexp (Store.initial goRegexp) exampleTwoIgnoreConfig).2 = none ∧
    (initFromString goRegexp (Store.initial goRegexp) exampleTwoIgnoreConfig).1.m.mappings =
      [exampleRule "a.*" [("zone", "$1"), ("name", "first")] true,
        exampleRule "b.*" [] true] ∧
    blockBodies (Split exampleTwoIgnoreConfig) none =
      [["zone=\"$1\"".toList, ignoreLine, "name=\"first\"".toList], [ignoreLine]] ∧
    List.Forall₂ IsRuleOfBlock
      (initFromString goRegexp (Store.initial goRegexp) exampleTwoIgnoreConfig).1.m.mappings
      (blockBodies (Split exampleTwoIgnoreConfig) none) ∧
    getMapping goRegexp
        (initFromString goRegexp (Store.initial goRegexp) exampleTwoIgnoreConfig).1.m
        "abc".toList = .returned (none, true) :=
  ⟨rfl, rfl, rfl,
    (ignore_rules_labels goRegexp (Store.initial goRegexp) exampleTwoIgnoreConfig rfl).1,
    (ignore_rules_labels goRegexp (Store.initial goRegexp) exampleTwoIgnoreConfig rfl).2.2
      "abc".toList [] [exampleRule "b.*" [] true]
      (exampleRule "a.*" [("zone", "$1"), ("name", "first")] true) rfl rfl
      (fun _ hb => (nomatch hb)) ⟨exampleRegexA, rfl, by decide⟩⟩

/-! ## Concatenation of texts -/

theorem Split_ne_nil (s : Str) : Split s ≠ [] := by
  cases s with
  | nil => simp [Split]
  | cons c cs =>
    by_cases hc : c = '\n'
    · simp [Split, hc]
    · simp only [Split, if_neg hc]
      cases Split cs <;> simp

theorem Split_append (a b : Str) : Split (a ++ '\n' :: b) = Split a ++ Split b := by
  induction a with
  | nil => simp [Split]
  | cons c cs ih =>
    have ih' : Split (cs.append ('\n' :: b)) = Split cs ++ Split b := ih
    by_cases hc : c = '\n'
    · simp only [List.cons_append, Split, if_pos hc, ih']
    · simp only [List.cons_append, Split, if_neg hc, ih']
      cases hs : Split cs with
      | nil => exact absurd hs (Split_ne_nil cs)
      | cons l ls => rfl

/-- The index passed to `updateMapping` only appears in its errors. -/
theorem updateMapping_index {E : RegexpLib} (line : Str) (i j : Nat)
    (mapping cur : metricMapping E) (h : updateMapping line i mapping = .ok cur) :
    updateMapping line j mapping = .ok cur := by
  unfold updateMapping at h ⊢
  split
  · rename_i whole label value hm
    rw [hm] at h
    simp only [] at h
    by_cases h1 : label = "name".toList ∧ ¬ metricNameRE_MatchString value = true
    · rw [if_pos h1] at h
      cases h
    · rw [if_neg h1] at h ⊢
      by_cases h2 : label = "ignore".toList ∧ value = "true".toList
      · rw [if_pos h2] at h ⊢
        exact h
      · rw [if_neg h2] at h ⊢
        exact h
  · rename_i hno
    split at h
    · rename_i whole label value hm
      exact absurd hm (hno whole label value)
    · cases h

/-- A successful step stays successful when the line is moved down by `k` lines in a
longer text and rules `pre` were parsed before. -/
theorem loopBody_shift (E : RegexpLib) (n i k : Nat) (l : Str) (pre : List (metricMapping E))
    (st st' : LoopState E) (h : loopBody E n i l st = .ok st') :
    loopBody E (k + n) (k + i) l { st with parsedMappings := pre ++ st.parsedMappings } =
      .ok { st' with parsedMappings := pre ++ st'.parsedMappings } := by
  rcases loopBody_ok_cases E n i l st st' h with
    ⟨hs, hl, rfl⟩ | ⟨hs, hl, re, hc, rfl⟩ | ⟨hs, hl, h1, h2, rfl⟩ | ⟨hs, hl, hi, cur, hu, rfl⟩
  · simp only [loopBody, hs, hl, if_true]
  · simp only [loopBody, hs, if_neg hl, hc]
  · simp only [loopBody, hs, hl, ne_eq, not_true_eq_false, and_false, if_false, if_true]
    rw [if_neg h1, if_neg h2, List.append_assoc]
  · have hi' : ¬ (k + i + 1 = k + n ∧ TrimSpace l ≠ []) := fun hh => hi (by omega)
    simp only [loopBody, hs]
    rw [if_neg hi', if_neg hl, updateMapping_index _ i (k + i) _ cur hu]

theorem runLoop_shift (E : RegexpLib) (n k : Nat) (pre : List (metricMapping E))
    (ls : List Str) (i : Nat) (st st' : LoopState E) (h : runLoop E n ls i st = .ok st') :
    runLoop E (k + n) ls (k + i) { st with parsedMappings := pre ++ st.parsedMappings } =
      .ok { st' with parsedMappings := pre ++ st'.parsedMappings } := by
  induction ls generalizing i st with
  | nil =>
    simp only [runLoop, Except.ok.injEq] at h
    subst h
    rfl
  | cons l ls ih =>
    simp only [runLoop] at h
    cases hb : loopBody E n i l st with
    | error e => rw [hb] at h; cases h
    | ok st1 =>
      simp only [hb] at h
      simp only [runLoop, loopBody_shift E n i k l pre st st1 hb]
      exact ih (i + 1) st1 h

/-- A successful step stays successful in a text with another number of lines, unless
the line becomes the last one. -/
theorem loopBody_numLines (E : RegexpLib) (n n' i : Nat) (l : Str) (st st' : LoopState E)
    (hn : i + 1 ≠ n') (h : loopBody E n i l st = .ok st') :
    loopBody E n' i l st = .ok st' := by
  rcases loopBody_ok_cases E n i l st st' h with
    ⟨hs, hl, rfl⟩ | ⟨hs, hl, re, hc, rfl⟩ | ⟨hs, hl, h1, h2, rfl⟩ | ⟨hs, hl, hi, cur, hu, rfl⟩
  · simp only [loopBody, hs, hl, if_true]
  · simp only [loopBody, hs, if_neg hl, hc]
  · simp only [loopBody, hs, hl, ne_eq, not_true_eq_false, and_false, if_false, if_true]
    rw [if_neg h1, if_neg h2]
  · simp only [loopBody, hs]
    rw [if_neg (fun hh => hn hh.1), if_neg hl, hu]

theorem runLoop_numLines (E : RegexpLib) (n n' : Nat) (ls : List Str) (i : Nat)
    (st st' : LoopState E) (hn : i + ls.length < n') (h : runLoop E n ls i st = .ok st') :
    runLoop E n' ls i st = .ok st' := by
  induction ls generalizing i st with
  | nil => exact h
  | cons l ls ih =>
    simp only [runLoop] at h
    simp only [List.length_cons] at hn
    cases hb : loopBody E n i l st with
    | error e => rw [hb] at h; cases h
    | ok st1 =>
      simp only [hb] at h
      simp only [runLoop, loopBody_numLines E n n' i l st st1 (by omega) hb]
      exact ih (i + 1) st1 (by omega) h

/-- After a blank last line the loop is outside any block. -/
theorem runLoop_blank_last (E : RegexpLib) (n : Nat) (front : List Str) (last : Str)
    (st : LoopState E) (hblank : TrimSpace last = [])
    (h : runLoop E n (front ++ [last]) 0 (LoopState.start E) = .ok st) :
    st.state = .SEARCHING ∧ st.currentMapping = freshMapping E := by
  have hfresh := runLoop_freshOutside E n _ st h
  rw [runLoop_append] at h
  cases ha : runLoop E n front 0 (LoopState.start E) with
  | error e => rw [ha] at h; cases h
  | ok sta =>
    simp only [ha, runLoop] at h
    cases hb : loopBody E n (0 + front.length) last sta with
    | error e => rw [hb] at h; cases h
    | ok stb =>
      simp only [hb, Except.ok.injEq] at h
      subst h
      have hstate : stb.state = .SEARCHING := by
        rcases loopBody_ok_cases E n _ last sta stb hb with
          ⟨hs, _, rfl⟩ | ⟨_, hl, _⟩ | ⟨_, _, _, _, rfl⟩ | ⟨_, hl, _⟩
        · exact hs
        · exact absurd hblank hl
        · rfl
        · exact absurd hblank hl
      exact ⟨hstate, hfresh hstate⟩

/-- C18. Concatenation preserves declaration order: when `initFromString` succeeds on
`c1` and on `c2` and the last line of `c1` is blank after trimming, it succeeds on `c1`
followed by a newline followed by `c2`, and publishes the rules parsed from `c1` followed
by the rules parsed from `c2`. -/
theorem initFromString_concat (E : RegexpLib) (s : Store E) (c1 c2 : Str)
    (front : List Str) (last : Str)
    (h1 : (initFromString E s c1).2 = none) (h2 : (initFromString E s c2).2 = none)
    (hlast : Split c1 = front ++ [last]) (hblank : TrimSpace last = []) :
    (initFromString E s (c1 ++ '\n' :: c2)).2 = none ∧
    (initFromString E s (c1 ++ '\n' :: c2)).1.m.mappings =
      (initFromString E s c1).1.m.mappings ++ (initFromString E s c2).1.m.mappings ∧
    (initFromString E s (c1 ++ '\n' :: c2)).1.mappingsCount =
      (initFromString E s c1).1.mappingsCount + (initFromString E s c2).1.mappingsCount := by
  obtain ⟨st1, hp1, heq1⟩ := initFromString_ok E s c1 h1
  obtain ⟨st2, hp2, heq2⟩ := initFromString_ok E s c2 h2
  unfold parseConfig at hp1 hp2
  simp only [] at hp1 hp2
  have hlen2 : 0 < (Split c2).length := List.length_pos.mpr (Split_ne_nil c2)
  have hs1 : st1.state = .SEARCHING ∧ st1.currentMapping = freshMapping E := by
    rw [hlast] at hp1
    exact runLoop_blank_last E _ front last st1 hblank hp1
  have hst1 : st1 = { LoopState.start E with
      parsedMappings := st1.parsedMappings ++ (LoopState.start E).parsedMappings } := by
    cases st1 with
    | mk a b c =>
      simp only [LoopState.start, List.append_nil] at hs1 ⊢
      rw [hs1.1, hs1.2]
  have hrun1 : runLoop E ((Split c1).length + (Split c2).length) (Split c1) 0
      (LoopState.start E) = .ok st1 :=
    runLoop_numLines E _ _ (Split c1) 0 _ st1 (by omega) hp1
  have hrun2 := runLoop_shift E (Split c2).length (Split c1).length st1.parsedMappings
    (Split c2) 0 (LoopState.start E) st2 hp2
  rw [← hst1] at hrun2
  have hp : parseConfig E (c1 ++ '\n' :: c2) =
      .ok { st2 with parsedMappings := st1.parsedMappings ++ st2.parsedMappings } := by
    unfold parseConfig
    simp only [Split_append, List.length_append]
    rw [runLoop_append]
    simp only [hrun1]
    rw [Nat.zero_add]
    exact hrun2
  simp only [initFromString, hp] at heq1 heq2 ⊢
  rw [heq1, heq2]
  simp

/-- C18, on two texts of one block each. -/
theorem initFromString_concat_witness :
    (initFromString goRegexp (Store.initial goRegexp)
      ("a.*\nname=\"first\"\n\n".toList ++ '\n' :: "b.*\nname=\"second\"\n\n".toList)).2 =
      none ∧
    (initFromString goRegexp (Store.initial goRegexp)
      ("a.*\nname=\"first\"\n\n".toList ++
        '\n' :: "b.*\nname=\"second\"\n\n".toList)).1.m.mappings =
      [exampleRule "a.*" [("name", "first")] false,
        exampleRule "b.*" [("name", "second")] false] :=
  ⟨(initFromString_concat goRegexp (Store.initial goRegexp) "a.*\nname=\"first\"\n\n".toList
      "b.*\nname=\"second\"\n\n".toList ["a.*".toList, "name=\"first\"".toList, []] []
      rfl rfl rfl rfl).1,
    (initFromString_concat goRegexp (Store.initial goRegexp) "a.*\nname=\"first\"\n\n".toList
      "b.*\nname=\"second\"\n\n".toList ["a.*".toList, "name=\"first\"".toList, []] []
      rfl rfl rfl rfl).2.1.trans rfl⟩

/-! ## White space around lines -/

theorem IsBlanks.isSpace {a : Str} (h : IsBlanks a) : ∀ c ∈ a, isSpace c = true := by
  intro c hc
  rcases h c hc with rfl | rfl <;> decide

/-- White space at the ends of a line does not change the trimmed line. -/
theorem TrimSpace_pad (a core b : Str) (ha : ∀ c ∈ a, isSpace c = true)
    (hb : ∀ c ∈ b, isSpace c = true) : TrimSpace (a ++ (core ++ b)) = TrimSpace core := by
  have hbr : ∀ c ∈ b.reverse, isSpace c = true := fun c hc => hb c (List.mem_reverse.mp hc)
  unfold TrimSpace
  rw [List.dropWhile_append_of_pos ha, List.dropWhile_append]
  by_cases hd : (List.dropWhile isSpace core).isEmpty = true
  · rw [if_pos hd]
    have hcore : List.dropWhile isSpace core = [] := List.isEmpty_iff.mp hd
    rw [hcore, List.dropWhile_eq_nil_iff.mpr hb]
  · rw [if_neg hd, List.reverse_append, List.dropWhile_append_of_pos hbr]

/-- The loop body only looks at the trimmed line. -/
theorem loopBody_trim (E : RegexpLib) (n i : Nat) (l l' : Str) (st : LoopState E)
    (h : TrimSpace l = TrimSpace l') : loopBody E n i l st = loopBody E n i l' st := by
  unfold loopBody
  rw [h]

theorem runLoop_trim (E : RegexpLib) (n : Nat) (ls ls' : List Str)
    (h : List.Forall₂ (fun l l' => TrimSpace l = TrimSpace l') ls ls') (i : Nat)
    (st : LoopState E) : runLoop E n ls i st = runLoop E n ls' i st := by
  induction h generalizing i st with
  | nil => rfl
  | cons hl _ ih =>
    simp only [runLoop, loopBody_trim E n i _ _ st hl]
    split
    · rfl
    · exact ih _ _

/-- C19. White space insensitivity: when the lines of two texts correspond one to one
and differ only by spaces and tabs added or removed at their ends, `initFromString` has
the same outcome on both: the same error (kind, number and reported text) or the same
published rules.  A line made of white space only is treated as the empty line. -/
theorem initFromString_whitespace_insensitive (E : RegexpLib) (s : Store E) (c1 c2 : Str)
    (h : List.Forall₂ SameUpToBlanks (Split c1) (Split c2)) :
    initFromString E s c1 = initFromString E s c2 ∧
    ∀ (n i : Nat) (l : Str) (st : LoopState E), (∀ c ∈ l, isSpace c = true) →
      loopBody E n i l st = loopBody E n i [] st := by
  constructor
  · have htrim : List.Forall₂ (fun l l' => TrimSpace l = TrimSpace l') (Split c1) (Split c2) := by
      refine List.Forall₂.imp ?_ h
      rintro l l' ⟨a, b, a', b', core, ha, hb, ha', hb', rfl, rfl⟩
      rw [TrimSpace_pad a core b ha.isSpace hb.isSpace,
        TrimSpace_pad a' core b' ha'.isSpace hb'.isSpace]
    have hp : parseConfig E c1 = parseConfig E c2 := by
      unfold parseConfig
      simp only []
      rw [h.length_eq]
      exact runLoop_trim E _ _ _ htrim 0 _
    simp only [initFromString, hp]
  · intro n i l st hl
    apply loopBody_trim
    have := TrimSpace_pad l [] [] hl (fun c hc => (nomatch hc))
    simpa using this

/-- C19, on a text and the same text with spaces and tabs around its lines, and on a
malformed text with its error. -/
theorem initFromString_whitespace_insensitive_witness :
    List.Forall₂ SameUpToBlanks (Split "a.*\nname=\"first\"\n".toList)
      (Split "  a.*\t\n\tname=\"first\"  \n \t".toList) ∧
    initFromString goRegexp (Store.initial goRegexp) "  a.*\t\n\tname=\"first\"  \n \t".toList =
      (⟨⟨[exampleRule "a.*" [("name", "first")] false]⟩, 1⟩, none) ∧
    initFromString goRegexp (Store.initial goRegexp) " a.*\n\tname \"first\" \n".toList =
      (Store.initial goRegexp, some (.MalformedLabelLine 1 "name \"first\"".toList)) := by
  have hb0 : IsBlanks [] := fun c hc => (nomatch hc)
  have blk : ∀ a : Str, (∀ c ∈ a, c = ' ' ∨ c = '\t') → IsBlanks a := fun _ hh => hh
  have h1 : List.Forall₂ SameUpToBlanks (Split "a.*\nname=\"first\"\n".toList)
      (Split "  a.*\t\n\tname=\"first\"  \n \t".toList) :=
    .cons ⟨[], [], "  ".toList, "\t".toList, "a.*".toList, hb0, hb0, blk _ (by decide), blk _ (by decide),
        rfl, rfl⟩
      (.cons ⟨[], [], "\t".toList, "  ".toList, "name=\"first\"".toList, hb0, hb0, blk _ (by decide),
          blk _ (by decide), rfl, rfl⟩
        (.cons ⟨[], [], " \t".toList, [], [], hb0, hb0, blk _ (by decide), hb0, rfl, rfl⟩ .nil))
  have h2 : List.Forall₂ SameUpToBlanks (Split "a.*\nname \"first\"\n".toList)
      (Split " a.*\n\tname \"first\" \n".toList) :=
    .cons ⟨[], [], " ".toList, [], "a.*".toList, hb0, hb0, blk _ (by decide), hb0, rfl, rfl⟩
      (.cons ⟨[], [], "\t".toList, " ".toList, "name \"first\"".toList, hb0, hb0, blk _ (by decide),
          blk _ (by decide), rfl, rfl⟩
        (.cons ⟨[], [], [], [], [], hb0, hb0, hb0, hb0, rfl, rfl⟩ .nil))
  refine ⟨h1, ?_, ?_⟩
  · rw [← (initFromString_whitespace_insensitive goRegexp (Store.initial goRegexp) _ _ h1).1]
    rfl
  · rw [← (initFromString_whitespace_insensitive goRegexp (Store.initial goRegexp) _ _ h2).1]
    rfl

end StatsdMapper
